import Mathlib

/-!
Shallow embedding of the lem-in solver (Go sources `src/main.go` and
`src/unnamed/part_000`) together with proofs about the claims of its
specification.

The two Go files share their data model and most of the pipeline
(`bfsShortestPath`, `findNonOverlappingPaths`, `findAllShortestPaths`,
`pathsShareRooms`, `selectBestPaths`, and the final path-set choice in
`main`): those are embedded once, in namespace `LemIn`.  The parts where
the variants differ (input parsing, ant distribution and the turn
simulation) are embedded separately in namespaces `LemIn.MainGo`
(for `src/main.go`) and `LemIn.PartZero` (for `src/unnamed/part_000`).

Go maps `map[string]*Room` / `map[string]bool` are modelled as
association lists / membership lists: the sources never iterate over a
map, they only insert and look up, so this is faithful.  Loops are
modelled by structural recursion, with an explicit fuel argument where
the Go loop is not structurally bounded (BFS and the simulation); the
fuel bounds are chosen large enough, which is established by the
progress lemmas below.
-/

namespace LemIn

/-- Go: `type Room struct { Name string; X, Y int; Links []string }`. -/
structure Room where
  Name : String
  X : Int
  Y : Int
  Links : List String
deriving DecidableEq, Repr

/-- Go: `type Farm struct { Ants int; Rooms map[string]*Room; Start string; End string }`.
`Rooms` is the association list of the map's bindings. -/
structure Farm where
  Ants : Nat
  Rooms : List (String × Room)
  Start : String
  End : String
deriving DecidableEq, Repr

/-- Lookup `f.Rooms[n]` in the Go room map; `none` models a `nil` pointer. -/
def findRoom (f : Farm) (n : String) : Option Room :=
  (f.Rooms.find? (fun p => p.1 = n)).map (fun p => p.2)

/-- `f.Rooms[n].Links` for a room that is present; `[]` where Go would
dereference `nil` (the panic itself is modelled by `linksOf?` below). -/
def linksD (f : Farm) (n : String) : List String :=
  ((findRoom f n).map Room.Links).getD []

/-- Panic-aware lookup of `f.Rooms[n].Links`: `none` is Go's nil-pointer
dereference panic. -/
def linksOf? (f : Farm) (n : String) : Option (List String) :=
  (findRoom f n).map Room.Links

/-- The neighbor list of the start room, `f.Rooms[f.Start].Links`. -/
def startLinks (f : Farm) : List String :=
  linksD f f.Start

/-- `len(f.Rooms[n].Links)`: the degree of room `n`. -/
def degree (f : Farm) (n : String) : Nat :=
  (linksD f n).length

/-! ### BFS (`bfsShortestPath`, identical in both sources)

```go
func bfsShortestPath(f *Farm, startNeighbor string, blockedRooms map[string]bool) []string {
    queue := [][]string{{f.Start, startNeighbor}}
    visited := make(map[string]bool)
    visited[f.Start] = true
    visited[startNeighbor] = true
    for len(queue) > 0 {
        path := queue[0]
        queue = queue[1:]
        last := path[len(path)-1]
        if last == f.End { return path }
        for _, next := range f.Rooms[last].Links {
            if !visited[next] && !blockedRooms[next] {
                visited[next] = true
                newPath := make([]string, len(path)); copy(newPath, path)
                newPath = append(newPath, next)
                queue = append(queue, newPath)
            }
        }
    }
    return nil
}
```
-/

/-- The inner `for _, next := range f.Rooms[last].Links` loop: enqueue an
extension of `path` for every link target that is neither visited nor
blocked, marking it visited. Returns the grown queue and visited list. -/
def bfsExpand (blocked : List String) (path : List String)
    (nexts : List String) (queue : List (List String)) (visited : List String) :
    List (List String) × List String :=
  nexts.foldl
    (fun acc next =>
      if next ∉ acc.2 ∧ next ∉ blocked then
        (acc.1 ++ [path ++ [next]], next :: acc.2)
      else acc)
    (queue, visited)

/-- The BFS queue loop; `fuel` dominates the iteration count (see the
measure lemmas below: each iteration pops one path and every enqueue
consumes a fresh room name). -/
def bfsLoop (f : Farm) (blocked : List String) :
    Nat → List (List String) → List String → Option (List String)
  | 0, _, _ => none
  | _ + 1, [], _ => none
  | fuel + 1, path :: queue, visited =>
    let last := path.getLastD ""
    if last = f.End then some path
    else
      let qv := bfsExpand blocked path (linksD f last) queue visited
      bfsLoop f blocked fuel qv.1 qv.2

/-- Every room name the BFS for first hop `n` can ever touch: the declared
room names, every name mentioned in a link, and the two seed rooms. -/
def bfsNames (f : Farm) (n : String) : List String :=
  f.Start :: n :: (f.Rooms.map (fun p => p.1) ++ f.Rooms.flatMap (fun p => p.2.Links))

/-- Go `bfsShortestPath`.  The initial visited map holds `f.Start` and the
first hop (a single binding when they coincide); the fuel
`(bfsNames f n).length + 2` exceeds the measure `|queue| + #unvisited names`,
which strictly decreases every iteration. -/
def bfsShortestPath (f : Farm) (n : String) (blocked : List String) :
    Option (List String) :=
  bfsLoop f blocked ((bfsNames f n).length + 2) [[f.Start, n]]
    (if n = f.Start then [f.Start] else [f.Start, n])

/-! ### Neighbor sorting and `findNonOverlappingPaths`

```go
for i := 0; i < len(neighbors)-1; i++ {
    for j := i + 1; j < len(neighbors); j++ {
        if len(f.Rooms[neighbors[j]].Links) < len(f.Rooms[neighbors[i]].Links) {
            neighbors[i], neighbors[j] = neighbors[j], neighbors[i]
        }
    }
}
```
The inner loop keeps the current minimum at position `i`, swapping the
previous occupant to position `j` whenever a strictly smaller key shows
up; `selPass` models one inner pass (returning the element left at
position `i` and the rewritten tail), `sortGo` the outer loop.
`selectBestPaths` sorts its path list by length with the very same
double loop, so both are instances of the key-generic functions. -/

/-- One pass of the inner loop: `cur` sits at position `i`; each tail
element with a strictly smaller key swaps places with it. -/
def selPass {α : Type} (key : α → Nat) : α → List α → α × List α
  | cur, [] => (cur, [])
  | cur, y :: ys =>
    if key y < key cur then
      let mr := selPass key y ys
      (mr.1, cur :: mr.2)
    else
      let mr := selPass key cur ys
      (mr.1, y :: mr.2)

/-- The outer loop of the exchange sort; `fuel` is the list length
(`selPass` preserves length, so the fuel is exactly enough). -/
def sortGo {α : Type} (key : α → Nat) : Nat → List α → List α
  | 0, _ => []
  | _ + 1, [] => []
  | fuel + 1, x :: xs =>
    let mr := selPass key x xs
    mr.1 :: sortGo key fuel mr.2

/-- The sorted copy of `f.Rooms[f.Start].Links` used by
`findNonOverlappingPaths` (ascending by degree of the neighbor). -/
def sortNeighbors (f : Farm) : List String :=
  sortGo (degree f) (startLinks f).length (startLinks f)

/-- The greedy loop of `findNonOverlappingPaths`: for each neighbor run
the BFS with the accumulated blocked set; on success accept the path and
block its intermediate rooms `path[1..len-2]`. -/
def nonOverlapLoop (f : Farm) :
    List String → List (List String) → List String → List (List String)
  | [], selected, _ => selected
  | n :: ns, selected, blocked =>
    match bfsShortestPath f n blocked with
    | some path =>
        nonOverlapLoop f ns (selected ++ [path])
          (blocked ++ (path.drop 1).dropLast)
    | none => nonOverlapLoop f ns selected blocked

/-- Go `findNonOverlappingPaths`. -/
def findNonOverlappingPaths (f : Farm) : List (List String) :=
  nonOverlapLoop f (sortNeighbors f) [] []

/-- Go `findAllShortestPaths`: for each neighbor of start, the inline BFS
is the same queue loop as `bfsShortestPath` with no blocked set (the Go
code repeats the BFS body literally, with `blockedRooms` absent, i.e.
never blocking); paths found are collected in neighbor order. -/
def findAllShortestPaths (f : Farm) : List (List String) :=
  (startLinks f).foldl
    (fun acc n =>
      match bfsShortestPath f n [] with
      | some path => acc ++ [path]
      | none => acc)
    []

/-- Go `pathsShareRooms`: do the intermediate rooms (`indices 1..len-2`)
of the two paths intersect? -/
def pathsShareRooms (path1 path2 : List String) : Bool :=
  ((path2.drop 1).dropLast).any
    (fun r => ((path1.drop 1).dropLast).contains r)

/-- The selection loop of `selectBestPaths`: keep a path iff it shares no
intermediate room with any already-selected path.  (The Go function also
fills a `usedRooms` map that nothing ever reads; it is omitted.) -/
def selectLoop : List (List String) → List (List String) → List (List String)
  | [], selected => selected
  | path :: rest, selected =>
    if selected.any (fun sp => pathsShareRooms path sp) then
      selectLoop rest selected
    else
      selectLoop rest (selected ++ [path])

/-- Go `selectBestPaths`: sort the candidate paths by length (same
exchange sort as the neighbor sort), then greedily keep non-conflicting
ones.  Returns `nil` (= `[]`) for an empty input. -/
def selectBestPaths (allPaths : List (List String)) : List (List String) :=
  if allPaths.isEmpty then []
  else selectLoop (sortGo List.length allPaths.length allPaths) []

/-- The final choice in both `main` functions:
`if len(nonOverlapPaths) > len(bestPaths) { finalPaths = nonOverlapPaths } else { finalPaths = bestPaths }`. -/
def finalPaths (f : Farm) : List (List String) :=
  let bestPaths := selectBestPaths (findAllShortestPaths f)
  let nonOverlapPaths := findNonOverlappingPaths f
  if bestPaths.length < nonOverlapPaths.length then nonOverlapPaths else bestPaths

/-- The intermediate rooms of a route: everything but its first and last
entry (`path[1..len-2]`). -/
def interRooms (path : List String) : List String :=
  (path.drop 1).dropLast

/-! ### Ant allocation

Both variants pick, for each ant in turn, the route minimizing
`route length + ants already assigned to it`, scanning the routes with

```go
best := 0
bestScore := lengths[0] + assigned[0]
for i := 1; i < len(paths); i++ {          // part_000 (main.go ranges over all of infos)
    score := lengths[i] + assigned[i]
    if score < bestScore { best = i; bestScore = score }
}
```
-/

/-- The scan of the route indices in `idxs`, carrying `(best, bestScore)`. -/
def pickLoop (score : Nat → Nat) (idxs : List Nat) (init : Nat × Nat) : Nat × Nat :=
  idxs.foldl
    (fun acc i => if score i < acc.2 then (i, score i) else acc)
    init

/-- `main.go`'s chooser: `for _, pi := range infos` revisits index 0 too. -/
def chooseRouteMain (score : Nat → Nat) (k : Nat) : Nat :=
  (pickLoop score (List.range k) (0, score 0)).1

/-- `part_000`'s chooser (`distributeAnts`): the scan starts at index 1. -/
def chooseRoutePart (score : Nat → Nat) (k : Nat) : Nat :=
  (pickLoop score (List.range' 1 (k - 1)) (0, score 0)).1

/-- Per-route edge counts `len(path) - 1` (Go `pathLengths` / the `infos`
table of `main.go` / the `lengths` table of `distributeAnts`). -/
def pathLengths (paths : List (List String)) : List Nat :=
  paths.map (fun p => p.length - 1)

namespace MainGo

/-- The allocation loop of `main.go`'s `simulateAnts` (steps 1–2): for
each ant `a = 0..ants-1` choose the best route, record it in `antPaths`
and bump its assigned count. -/
def assignLoop (lengths : List Nat) : Nat → List Nat → List Nat → List Nat
  | 0, _, antPaths => antPaths
  | a + 1, assigned, antPaths =>
    let score := fun i => lengths.getD i 0 + assigned.getD i 0
    let best := chooseRouteMain score lengths.length
    assignLoop lengths a (assigned.set best (assigned.getD best 0 + 1))
      (antPaths ++ [best])

/-- `antPaths` as computed by `main.go`'s `simulateAnts` before the
simulation starts. -/
def antPathsOf (ants : Nat) (paths : List (List String)) : List Nat :=
  assignLoop (pathLengths paths) ants (paths.map (fun _ => 0)) []

end MainGo

namespace PartZero

/-- The per-ant step of `distributeAnts`: choose the best route, append
ant `a` to its bucket, bump its count. -/
def distStep (lengths : List Nat) (a : Nat)
    (st : List (List Nat) × List Nat) : List (List Nat) × List Nat :=
  let score := fun i => lengths.getD i 0 + st.2.getD i 0
  let best := chooseRoutePart score lengths.length
  (st.1.set best (st.1.getD best [] ++ [a]),
   st.2.set best (st.2.getD best 0 + 1))

/-- Go `distributeAnts` (part_000): buckets of ant ids `1..ants`, one
bucket per route. -/
def distributeAnts (ants : Nat) (paths : List (List String)) :
    List (List Nat) :=
  ((List.range' 1 ants).foldl
    (fun st a => distStep (pathLengths paths) a st)
    (paths.map (fun _ => []), paths.map (fun _ => 0))).1

end PartZero

/-! ### The turn simulation of `main.go`

```go
for antsFinished < ants {
    moves := []string{}
    occupied := make(map[string]bool)
    for ant := 0; ant < ants; ant++ {
        currentPath := paths[antPaths[ant]]
        if positions[ant] >= len(currentPath)-1 { continue }
        nextPos := positions[ant] + 1
        nextRoom := currentPath[nextPos]
        if nextRoom == f.End || !occupied[nextRoom] {
            positions[ant] = nextPos
            moves = append(moves, fmt.Sprintf("L%d-%s", ant+1, nextRoom))
            if nextRoom != f.End { occupied[nextRoom] = true }
            if nextRoom == f.End { antsFinished++ }
        }
    }
    round++
}
```

An ant's state is the pair (its route `paths[antPaths[ant]]`, its
position index); a move is the pair (ant id `ant+1`, destination room)
behind the printed string `L<id>-<room>`. -/

namespace MainGo

/-- One turn of `main.go`'s simulation: process the ants in increasing
id order (`i` is the 0-based id of the head ant), threading the
`occupied` set; returns the new states, the move list of the turn, the
number of ants that reached `End` this turn and the final occupied set. -/
def simTurn (endR : String) :
    List (List String × Nat) → Nat → List String →
    List (List String × Nat) × List (Nat × String) × Nat × List String
  | [], _, occ => ([], [], 0, occ)
  | (r, p) :: rest, i, occ =>
    if r.length - 1 ≤ p then
      let t := simTurn endR rest (i + 1) occ
      ((r, p) :: t.1, t.2)
    else
      let next := r.getD (p + 1) ""
      if next = endR ∨ next ∉ occ then
        let occ2 := if next = endR then occ else next :: occ
        let d := if next = endR then 1 else 0
        let t := simTurn endR rest (i + 1) occ2
        ((r, p + 1) :: t.1, (i + 1, next) :: t.2.1, d + t.2.2.1, t.2.2.2)
      else
        let t := simTurn endR rest (i + 1) occ
        ((r, p) :: t.1, t.2)

/-- The outer `for antsFinished < ants` loop.  Returns the schedule (one
move list per loop iteration), the final ant states and the final
`antsFinished` counter.  The fuel dominates the iteration count (see the
progress lemmas: every iteration with an unfinished ant moves at least
one ant). -/
def simLoop (endR : String) (ants : Nat) :
    Nat → List (List String × Nat) → Nat →
    List (List (Nat × String)) × List (List String × Nat) × Nat
  | 0, sts, fin => ([], sts, fin)
  | fuel + 1, sts, fin =>
    if fin < ants then
      let t := simTurn endR sts 0 []
      let rest := simLoop endR ants fuel t.1 (fin + t.2.2.1)
      (t.2.1 :: rest.1, rest.2)
    else ([], sts, fin)

/-- Total remaining distance of the ants: the fuel bound for `simLoop`. -/
def sumRem (sts : List (List String × Nat)) : Nat :=
  (sts.map (fun rp => rp.1.length - 1 - rp.2)).sum

/-- `main.go`'s `simulateAnts` after allocation (steps 3): all ants start
at position 0 of their assigned route. -/
def initStates (paths : List (List String)) (antPaths : List Nat) :
    List (List String × Nat) :=
  antPaths.map (fun pi => (paths.getD pi [], 0))

/-- The full run of `main.go`'s `simulateAnts f paths`: allocation, then
the turn loop; the result is the schedule, a list of per-turn move
lists.  The fuel `sumRem + 1` is sufficient by the progress lemmas. -/
def simulateAnts (f : Farm) (paths : List (List String)) :
    List (List (Nat × String)) :=
  let sts := initStates paths (antPathsOf f.Ants paths)
  (simLoop f.End f.Ants (sumRem sts + 1) sts 0).1

/-- The tail of `main`: report failure (`none`) on an empty final path
set, otherwise run the simulation. -/
def mainResult (f : Farm) : Option (List (List (Nat × String))) :=
  if finalPaths f = [] then none
  else some (simulateAnts f (finalPaths f))

end MainGo

/-! ### The turn simulation of `part_000`

```go
for len(antPositions) > 0 {
    var moves []string
    var newPositions []AntPosition
    usedLinks := make(map[string]bool)
    for _, pos := range antPositions {
        if pos.step < len(paths[pos.path])-1 {
            currentRoom := paths[pos.path][pos.step]
            nextRoom := paths[pos.path][pos.step+1]
            link := currentRoom + "-" + nextRoom
            if !usedLinks[link] {
                moves = append(moves, fmt.Sprintf("L%d-%s", pos.ant, nextRoom))
                newPositions = append(newPositions, AntPosition{pos.ant, pos.path, pos.step + 1})
                usedLinks[link] = true
            } else { newPositions = append(newPositions, pos) }
        }
    }
    antPositions = newPositions
}
```

Note: it claims tunnel *links*, not destination rooms, it has no special
case for the end room, and the ants are iterated in the order of
`antPositions`, which groups them by route, not by ant id. -/

namespace PartZero

/-- An ant's state in part_000: `(ant id, route index, step)`. -/
abbrev AntPosition := Nat × Nat × Nat

/-- One turn: thread the `usedLinks` set over the ants in list order;
finished ants are dropped from the new state list. -/
def simTurn (paths : List (List String)) :
    List AntPosition → List String →
    List AntPosition × List (Nat × String)
  | [], _ => ([], [])
  | pos :: rest, usedLinks =>
    let route := paths.getD pos.2.1 []
    if pos.2.2 < route.length - 1 then
      let currentRoom := route.getD pos.2.2 ""
      let nextRoom := route.getD (pos.2.2 + 1) ""
      let link := currentRoom ++ "-" ++ nextRoom
      if link ∉ usedLinks then
        let t := simTurn paths rest (link :: usedLinks)
        ((pos.1, pos.2.1, pos.2.2 + 1) :: t.1, (pos.1, nextRoom) :: t.2)
      else
        let t := simTurn paths rest usedLinks
        (pos :: t.1, t.2)
    else
      simTurn paths rest usedLinks

/-- The `for len(antPositions) > 0` loop; a turn whose move list is
empty is not emitted (Go only prints non-empty move lists). -/
def simLoop (paths : List (List String)) :
    Nat → List AntPosition → List (List (Nat × String))
  | 0, _ => []
  | fuel + 1, antPositions =>
    if antPositions.isEmpty then []
    else
      let t := simTurn paths antPositions []
      if t.2.isEmpty then simLoop paths fuel t.1
      else t.2 :: simLoop paths fuel t.1

/-- The initial ant list: the distribution's buckets flattened in route
order (this is why part_000 iterates ants grouped by route). -/
def initPositions (antDistribution : List (List Nat)) : List AntPosition :=
  (antDistribution.enum.map
    (fun bucket => bucket.2.map (fun ant => (ant, bucket.1, 0)))).flatten

/-- Go `simulateAnts` (part_000): the schedule as a list of per-turn move
lists.  The fuel is a crude upper bound on the number of turns (each
turn at least the first movable ant moves, and total progress is bounded
by ants × longest route). -/
def simulateAnts (paths : List (List String))
    (antDistribution : List (List Nat)) : List (List (Nat × String)) :=
  let ap := initPositions antDistribution
  simLoop paths (ap.length * ((paths.map List.length).sum + 2) + 2) ap

/-- The tail of part_000's `main`: `none` on an empty final path set,
otherwise distribute the ants and simulate. -/
def mainResult (f : Farm) : Option (List (List (Nat × String))) :=
  if finalPaths f = [] then none
  else some (simulateAnts (finalPaths f)
    (distributeAnts f.Ants (finalPaths f)))

end PartZero

/-! ### Panic-aware BFS

`main.go`'s parser can accept tunnels to undeclared rooms (see the
parsers below); `f.Rooms[last].Links` then dereferences a `nil` pointer.
`BfsRes.panic` makes that outcome observable. -/

/-- Result of a BFS run in a farm whose links may dangle: `panic` is the
nil-pointer dereference of `f.Rooms[last].Links`. -/
inductive BfsRes where
  | panic : BfsRes
  | noRoute : BfsRes
  | found : List String → BfsRes
deriving DecidableEq, Repr

/-- `bfsLoop` with the room lookup made explicit: a missing room is Go's
panic, everything else is as in `bfsLoop`. -/
def bfsLoopE (f : Farm) (blocked : List String) :
    Nat → List (List String) → List String → BfsRes
  | 0, _, _ => .noRoute
  | _ + 1, [], _ => .noRoute
  | fuel + 1, path :: queue, visited =>
    let last := path.getLastD ""
    if last = f.End then .found path
    else
      match linksOf? f last with
      | none => .panic
      | some links =>
        let qv := bfsExpand blocked path links queue visited
        bfsLoopE f blocked fuel qv.1 qv.2

/-- `bfsShortestPath` with panics observable. -/
def bfsShortestPathE (f : Farm) (n : String) (blocked : List String) : BfsRes :=
  bfsLoopE f blocked ((bfsNames f n).length + 2) [[f.Start, n]]
    (if n = f.Start then [f.Start] else [f.Start, n])

/-! ### Input parsing

The two variants differ here.  The input file is modelled as its list of
lines (what `bufio.Scanner` yields).  `strconv.Atoi` is `atoi?`,
`strings.Fields` is `fields` (splitting on spaces; the sources' inputs
use single spaces), `strings.Split(line, "-")` is `String.splitOn "-"`. -/

/-- Split a character list at every occurrence of `sep` (the empty
pieces are kept, as with Go's `strings.Split`). -/
def charSplit (sep : Char) (cs : List Char) : List (List Char) :=
  cs.foldr
    (fun c acc =>
      if c = sep then [] :: acc
      else
        match acc with
        | [] => [[c]]
        | g :: gs => (c :: g) :: gs)
    [[]]

/-- `strings.HasPrefix`. -/
def strHasPrefix (s pre : String) : Bool :=
  s.toList.take pre.toList.length == pre.toList

/-- `strings.Contains(s, c)` for a one-character pattern. -/
def strContainsChar (s : String) (c : Char) : Bool :=
  s.toList.contains c

/-- `strings.TrimSpace`. -/
def strTrim (s : String) : String :=
  String.mk
    (((s.toList.dropWhile Char.isWhitespace).reverse.dropWhile
      Char.isWhitespace).reverse)

/-- The digits of `cs` as a number, or `none` if `cs` is empty or holds
a non-digit (the error case of `strconv.Atoi`). -/
def digitsToNat? (cs : List Char) : Option Nat :=
  if cs.isEmpty then none
  else
    cs.foldl
      (fun acc c =>
        match acc with
        | none => none
        | some v => if c.isDigit then some (v * 10 + (c.toNat - 48)) else none)
      (some 0)

/-- Go `strconv.Atoi` (overflow aside): optional sign, then digits. -/
def atoi? (s : String) : Option Int :=
  match s.toList with
  | '+' :: rest => (digitsToNat? rest).map (fun v => (v : Int))
  | '-' :: rest => (digitsToNat? rest).map (fun v => -(v : Int))
  | cs => (digitsToNat? cs).map (fun v => (v : Int))

/-- Go `strings.Fields` on space-separated text. -/
def fields (s : String) : List String :=
  ((charSplit ' ' s.toList).filter (fun g => ¬ g.isEmpty)).map String.mk

/-- `farm.Rooms[name] = &Room{...}`: map insertion, overwriting any
previous binding for the same name. -/
def insertRoom (rs : List (String × Room)) (n : String) (r : Room) :
    List (String × Room) :=
  if rs.any (fun p => p.1 = n) then
    rs.map (fun p => if p.1 = n then (n, r) else p)
  else rs ++ [(n, r)]

/-- `farm.Rooms[a].Links = append(farm.Rooms[a].Links, b)`. -/
def addLink (rs : List (String × Room)) (a b : String) :
    List (String × Room) :=
  rs.map (fun p =>
    if p.1 = a then (p.1, { p.2 with Links := p.2.Links ++ [b] }) else p)

namespace MainGo

/-- Parser state of `main.go`'s `parseInput` (`lineCount` only ever
distinguishes 0 from positive, hence `antsDone`). -/
structure PSt where
  ants : Nat
  rooms : List (String × Room)
  Start : String
  End : String
  lastCmd : String
  antsDone : Bool
deriving Repr

/-- One line of `main.go`'s `parseInput` loop. -/
def pStep (st : PSt) (line : String) : Except String PSt :=
  if line = "" ∨ (strHasPrefix line "#" ∧ ¬ strHasPrefix line "##") then .ok st
  else if ¬ st.antsDone then
    match atoi? line with
    | some v =>
      if 0 < v then .ok { st with ants := v.toNat, antsDone := true }
      else .error "invalid number of ants"
    | none => .error "invalid number of ants"
  else if strHasPrefix line "##" then .ok { st with lastCmd := line }
  else if strContainsChar line ' ' then
    let parts := fields line
    if parts.length ≠ 3 then .error "invalid room line"
    else
      let name := parts.getD 0 ""
      let x := (atoi? (parts.getD 1 "")).getD 0
      let y := (atoi? (parts.getD 2 "")).getD 0
      .ok { st with
        rooms := insertRoom st.rooms name ⟨name, x, y, []⟩
        Start := if st.lastCmd = "##start" then name else st.Start
        End := if st.lastCmd = "##end" then name else st.End
        lastCmd := "" }
  else if strContainsChar line '-' then
    let parts := (charSplit '-' line.toList).map String.mk
    if parts.length ≠ 2 then .error "invalid tunnel line"
    else
      let a := parts.getD 0 ""
      let b := parts.getD 1 ""
      let rooms1 :=
        if (st.rooms.find? (fun p => p.1 = a)).isSome then addLink st.rooms a b
        else st.rooms
      let rooms2 :=
        if (rooms1.find? (fun p => p.1 = b)).isSome then addLink rooms1 b a
        else rooms1
      .ok { st with rooms := rooms2 }
  else .ok st

/-- Go `parseInput` of `main.go` on the file's lines: note that a tunnel
line naming an undeclared room is accepted, appending the undeclared
name to the declared endpoint's links. -/
def parseInput (lines : List String) : Except String Farm :=
  match lines.foldl (fun (acc : Except String PSt) l => acc.bind (fun st => pStep st l))
      (Except.ok ⟨0, [], "", "", "", false⟩) with
  | .error e => .error e
  | .ok st =>
    if st.Start = "" ∨ st.End = "" then .error "missing start or end room"
    else .ok ⟨st.ants, st.rooms, st.Start, st.End⟩

end MainGo

namespace PartZero

/-- Parser state of part_000's `parseInput`. -/
structure PSt where
  ants : Nat
  rooms : List (String × Room)
  Start : String
  End : String
  lastCmd : String
  antsDone : Bool
  startSet : Bool
  endSet : Bool
  coords : List (Int × Int)
deriving Repr

/-- The ant-count line of part_000's `parseInput` (identical to the
main.go one). -/
def pStepAnts (st : PSt) (line : String) : Except String PSt :=
  match atoi? line with
  | some v =>
    if 0 < v then .ok { st with ants := v.toNat, antsDone := true }
    else .error "invalid number of ants"
  | none => .error "invalid number of ants"

/-- The room-definition branch of part_000's `parseInput`, on the
line's fields. -/
def pStepRoomP (st : PSt) (parts : List String) : Except String PSt :=
  if parts.length ≠ 3 then .error "invalid room definition"
  else if (st.rooms.find? (fun p => p.1 = parts.getD 0 "")).isSome then
    .error "duplicate room name"
  else
    match atoi? (parts.getD 1 ""), atoi? (parts.getD 2 "") with
    | some x, some y =>
      if (x, y) ∈ st.coords then .error "duplicate coordinates"
      else if st.lastCmd = "##start" ∧ st.startSet then
        .error "more than one start room defined"
      else if st.lastCmd = "##end" ∧ st.endSet then
        .error "more than one end room defined"
      else .ok { st with
        rooms := st.rooms ++
          [(parts.getD 0 "", ⟨parts.getD 0 "", x, y, []⟩)]
        coords := st.coords ++ [(x, y)]
        Start := if st.lastCmd = "##start" then parts.getD 0 "" else st.Start
        startSet := st.startSet ∨ st.lastCmd = "##start"
        End := if st.lastCmd = "##end" then parts.getD 0 "" else st.End
        endSet := st.endSet ∨ st.lastCmd = "##end"
        lastCmd := "" }
    | _, _ => .error "invalid coordinates"

/-- The tunnel branch of part_000's `parseInput`, on the line split at
every dash: both trimmed endpoints must name declared rooms. -/
def pStepTunnelP (st : PSt) (parts : List String) : Except String PSt :=
  if parts.length ≠ 2 then .error "invalid tunnel line"
  else if (st.rooms.find? (fun p => p.1 = strTrim (parts.getD 0 ""))).isNone ∨
      (st.rooms.find? (fun p => p.1 = strTrim (parts.getD 1 ""))).isNone then
    .error "tunnel references unknown room(s)"
  else .ok { st with
    rooms := addLink (addLink st.rooms (strTrim (parts.getD 0 ""))
      (strTrim (parts.getD 1 "")))
      (strTrim (parts.getD 1 "")) (strTrim (parts.getD 0 "")) }

/-- One line of part_000's `parseInput` loop (lines are trimmed; rooms
and coordinates are validated; tunnels to unknown rooms are rejected;
the branch bodies are the helper functions above). -/
def pStep (st : PSt) (rawLine : String) : Except String PSt :=
  if strTrim rawLine = "" ∨ (strHasPrefix (strTrim rawLine) "#" ∧
      ¬ strHasPrefix (strTrim rawLine) "##") then .ok st
  else if ¬ st.antsDone then pStepAnts st (strTrim rawLine)
  else if strHasPrefix (strTrim rawLine) "##" then
    .ok { st with lastCmd := strTrim rawLine }
  else if strContainsChar (strTrim rawLine) ' ' then
    pStepRoomP st (fields (strTrim rawLine))
  else if strContainsChar (strTrim rawLine) '-' then
    pStepTunnelP st ((charSplit '-' (strTrim rawLine).toList).map String.mk)
  else .error "invalid line format"

/-- Go `parseInput` of part_000 on the file's lines. -/
def parseInput (lines : List String) : Except String Farm :=
  match lines.foldl (fun (acc : Except String PSt) l => acc.bind (fun st => pStep st l))
      (Except.ok ⟨0, [], "", "", "", false, false, false, []⟩) with
  | .error e => .error e
  | .ok st =>
    if st.Start = "" ∨ st.End = "" then .error "missing start or end room"
    else .ok ⟨st.ants, st.rooms, st.Start, st.End⟩

end PartZero

deriving instance DecidableEq for Except

/-- Every link of every room names a declared room (the invariant the
part_000 parser guarantees and the main.go parser does not). -/
def closedLinks (f : Farm) : Prop :=
  ∀ p ∈ f.Rooms, ∀ l ∈ p.2.Links, (findRoom f l).isSome = true

instance (f : Farm) : Decidable (closedLinks f) := by
  unfold closedLinks; infer_instance

/-! ### Concrete farms used by the claims -/

/-- The concrete graph of claim C8: rooms `start`, `end`, `1`, tunnels
`start-1` and `1-end`, 2 ants (links listed in tunnel declaration
order, exactly as the parsers build them). -/
def farm8 : Farm :=
  { Ants := 2
    Rooms := [("start", ⟨"start", -2, 0, ["1"]⟩),
              ("end", ⟨"end", 10, 0, ["1"]⟩),
              ("1", ⟨"1", 0, 3, ["start", "end"]⟩)]
    Start := "start", End := "end" }

/-- A farm on which `findNonOverlappingPaths` accepts two routes that
share the intermediate room `b`: rooms `start`, `end`, `a`, `b`,
tunnels `start-a`, `start-b`, `a-b`, `b-end`; 3 ants. -/
def farmC1 : Farm :=
  { Ants := 3
    Rooms := [("start", ⟨"start", 0, 0, ["a", "b"]⟩),
              ("end", ⟨"end", 9, 0, ["b"]⟩),
              ("a", ⟨"a", 1, 1, ["start", "b"]⟩),
              ("b", ⟨"b", 2, 2, ["start", "a", "end"]⟩)]
    Start := "start", End := "end" }

/-- A farm with a single direct `start-end` tunnel and 2 ants. -/
def farmSE : Farm :=
  { Ants := 2
    Rooms := [("start", ⟨"start", 0, 0, ["end"]⟩),
              ("end", ⟨"end", 9, 0, ["start"]⟩)]
    Start := "start", End := "end" }

/-- A farm whose final route set has lengths 2 and 5, with a single ant:
tunnels `start-a`, `start-b`, `a-end`, `b-c`, `c-d`, `d-e`, `e-end`. -/
def farmC3 : Farm :=
  { Ants := 1
    Rooms := [("start", ⟨"start", 0, 0, ["a", "b"]⟩),
              ("end", ⟨"end", 9, 0, ["a", "e"]⟩),
              ("a", ⟨"a", 1, 1, ["start", "end"]⟩),
              ("b", ⟨"b", 1, 2, ["start", "c"]⟩),
              ("c", ⟨"c", 2, 2, ["b", "d"]⟩),
              ("d", ⟨"d", 3, 2, ["c", "e"]⟩),
              ("e", ⟨"e", 4, 2, ["d", "end"]⟩)]
    Start := "start", End := "end" }

/-- A farm whose start neighbors are, in tunnel declaration order,
`A`, `B`, `C` with degrees 2, 2, 1: tunnels `start-A`, `start-B`,
`start-C`, `A-end`, `B-end`. -/
def farm5 : Farm :=
  { Ants := 1
    Rooms := [("start", ⟨"start", 0, 0, ["A", "B", "C"]⟩),
              ("end", ⟨"end", 9, 0, ["A", "B"]⟩),
              ("A", ⟨"A", 1, 1, ["start", "end"]⟩),
              ("B", ⟨"B", 1, 2, ["start", "end"]⟩),
              ("C", ⟨"C", 1, 3, ["start"]⟩)]
    Start := "start", End := "end" }

/-- A farm whose start room has no tunnels at all. -/
def farmNoNeighbors : Farm :=
  { Ants := 2
    Rooms := [("start", ⟨"start", 0, 0, []⟩),
              ("end", ⟨"end", 9, 0, []⟩)]
    Start := "start", End := "end" }

/-- Modelled from the spec: the neighbor order the spec prescribes for
the Disjoint Path Selector — "ascending by their own degree …; ties
broken by declaration order", i.e. a stable sort by degree.  Used only
to compare the code's order against the spec's words. -/
def stableInsertByKey (key : String → Nat) (x : String) :
    List String → List String
  | [] => [x]
  | y :: ys =>
    if key x ≤ key y then x :: y :: ys else y :: stableInsertByKey key x ys

/-- Modelled from the spec: stable sort of start's neighbors by degree,
declaration order preserved among ties. -/
def specNeighborOrder (f : Farm) : List String :=
  (startLinks f).foldr (stableInsertByKey (degree f)) []

/-- The non-`end` destinations claimed, before agent `id` is considered,
by the moves of agents with a smaller id in the same turn. -/
def claimedBefore (endR : String) (mvs : List (Nat × String)) (id : Nat) :
    List String :=
  (mvs.filter (fun m => decide (m.1 < id ∧ m.2 ≠ endR))).map (fun m => m.2)

/-- The route of the agent at index `j` of a state list. -/
def antRoute (sts : List (List String × Nat)) (j : Nat) : List String :=
  (sts.getD j ([], 0)).1

/-- The position of the agent at index `j` of a state list. -/
def antPos (sts : List (List String × Nat)) (j : Nat) : Nat :=
  (sts.getD j ([], 0)).2

/-- The destination (`currentPath[nextPos]`) of the agent at index `j`. -/
def antDest (sts : List (List String × Nat)) (j : Nat) : String :=
  (antRoute sts j).getD (antPos sts j + 1) ""

/-- Agent `j` has not yet finished its route
(`positions[ant] < len(currentPath)-1`). -/
def antUnfinished (sts : List (List String × Nat)) (j : Nat) : Prop :=
  antPos sts j < (antRoute sts j).length - 1

/-- The claimed move rule: the destination is the end room, or it is
claimed neither by the pre-existing occupancy `occ` (empty at the start
of a turn) nor by the move of an agent with a smaller id in the move
list `mvs` of the same turn. -/
def MoveOK (endR : String) (occ : List String) (mvs : List (Nat × String))
    (id : Nat) (next : String) : Prop :=
  next = endR ∨ (next ∉ occ ∧ next ∉ claimedBefore endR mvs id)

/-- The per-turn behavior claimed for the scheduler (see claim C2),
stated for the agent at index `j` (id `j + 1`) of the state list at the
start of a turn (`occupied` empty): the agent advances and its move is
recorded exactly when it is unfinished and its destination is the end
room or is claimed by no earlier agent's move of the same turn;
otherwise it keeps its position and has no move; and every iteration of
the scheduler loop is one such turn, with the occupied set reset. -/
def schedulerStepOK (endR : String) (sts : List (List String × Nat))
    (j : Nat) : Prop :=
  ((antUnfinished sts j ∧
      MoveOK endR [] (MainGo.simTurn endR sts 0 []).2.1 (j + 1)
        (antDest sts j)) →
    antRoute (MainGo.simTurn endR sts 0 []).1 j = antRoute sts j ∧
    antPos (MainGo.simTurn endR sts 0 []).1 j = antPos sts j + 1 ∧
    (j + 1, antDest sts j) ∈ (MainGo.simTurn endR sts 0 []).2.1) ∧
  (¬ (antUnfinished sts j ∧
      MoveOK endR [] (MainGo.simTurn endR sts 0 []).2.1 (j + 1)
        (antDest sts j)) →
    antRoute (MainGo.simTurn endR sts 0 []).1 j = antRoute sts j ∧
    antPos (MainGo.simTurn endR sts 0 []).1 j = antPos sts j ∧
    ∀ x, (j + 1, x) ∉ (MainGo.simTurn endR sts 0 []).2.1) ∧
  (∀ ants fuel fin, fin < ants →
    (MainGo.simLoop endR ants (fuel + 1) sts fin).1 =
      (MainGo.simTurn endR sts 0 []).2.1 ::
        (MainGo.simLoop endR ants fuel (MainGo.simTurn endR sts 0 []).1
          (fin + (MainGo.simTurn endR sts 0 []).2.2.1)).1)

/-- A well-formed route as the pipeline produces them: at least one
edge, ending at the end room, which appears nowhere earlier. -/
def RouteWF (endR : String) (r : List String) : Prop :=
  2 ≤ r.length ∧ r.getLastD "" = endR ∧ endR ∉ r.dropLast

instance (endR : String) (r : List String) : Decidable (RouteWF endR r) := by
  unfold RouteWF; infer_instance

/-- The property of the per-agent route choice both allocators make
(see claim C6): both choosers agree, the choice is in range, its score
`length + assigned` is minimal, every smaller index scores strictly
worse, and one step of either allocation loop records exactly this
choice. -/
def allocatorChoiceOK (lengths assigned : List Nat) : Prop :=
  chooseRouteMain (fun i => lengths.getD i 0 + assigned.getD i 0)
      lengths.length =
    chooseRoutePart (fun i => lengths.getD i 0 + assigned.getD i 0)
      lengths.length ∧
  chooseRoutePart (fun i => lengths.getD i 0 + assigned.getD i 0)
      lengths.length < lengths.length ∧
  (∀ i < lengths.length,
    lengths.getD (chooseRoutePart (fun j => lengths.getD j 0 + assigned.getD j 0)
        lengths.length) 0 +
      assigned.getD (chooseRoutePart (fun j => lengths.getD j 0 + assigned.getD j 0)
        lengths.length) 0 ≤
    lengths.getD i 0 + assigned.getD i 0) ∧
  (∀ i < chooseRoutePart (fun j => lengths.getD j 0 + assigned.getD j 0)
      lengths.length,
    lengths.getD (chooseRoutePart (fun j => lengths.getD j 0 + assigned.getD j 0)
        lengths.length) 0 +
      assigned.getD (chooseRoutePart (fun j => lengths.getD j 0 + assigned.getD j 0)
        lengths.length) 0 <
    lengths.getD i 0 + assigned.getD i 0) ∧
  (∀ a antPaths, MainGo.assignLoop lengths (a + 1) assigned antPaths =
    MainGo.assignLoop lengths a
      (assigned.set
        (chooseRouteMain (fun j => lengths.getD j 0 + assigned.getD j 0)
          lengths.length)
        (assigned.getD
          (chooseRouteMain (fun j => lengths.getD j 0 + assigned.getD j 0)
            lengths.length) 0 + 1))
      (antPaths ++
        [chooseRouteMain (fun j => lengths.getD j 0 + assigned.getD j 0)
          lengths.length])) ∧
  (∀ a dist, PartZero.distStep lengths a (dist, assigned) =
    (dist.set
      (chooseRoutePart (fun j => lengths.getD j 0 + assigned.getD j 0)
        lengths.length)
      (dist.getD
        (chooseRoutePart (fun j => lengths.getD j 0 + assigned.getD j 0)
          lengths.length) [] ++ [a]),
     assigned.set
      (chooseRoutePart (fun j => lengths.getD j 0 + assigned.getD j 0)
        lengths.length)
      (assigned.getD
        (chooseRoutePart (fun j => lengths.getD j 0 + assigned.getD j 0)
          lengths.length) 0 + 1)))

/-- The number of finished agents in a state list (position at or past
the last index of the route). -/
def countDone (sts : List (List String × Nat)) : Nat :=
  (sts.filter (fun rp => decide (rp.1.length - 1 ≤ rp.2))).length

/-- Well-formed scheduler states: every agent sits on a well-formed
route, at a position no further than its last index. -/
def StatesWF (endR : String) (sts : List (List String × Nat)) : Prop :=
  ∀ rp ∈ sts, RouteWF endR rp.1 ∧ rp.2 ≤ rp.1.length - 1

/-- Claim C3's amended property: started from all agents at position 0
of their assigned routes, the scheduler loop exits with its finished
counter equal to the agent count and every agent done, and the schedule
is at least as long as the edge count of every route that received at
least one agent. -/
def schedulerRunOK (f : Farm) (paths : List (List String)) : Prop :=
  (MainGo.simLoop f.End f.Ants
      (MainGo.sumRem (MainGo.initStates paths (MainGo.antPathsOf f.Ants paths)) + 1)
      (MainGo.initStates paths (MainGo.antPathsOf f.Ants paths)) 0).2.2 = f.Ants ∧
  countDone (MainGo.simLoop f.End f.Ants
      (MainGo.sumRem (MainGo.initStates paths (MainGo.antPathsOf f.Ants paths)) + 1)
      (MainGo.initStates paths (MainGo.antPathsOf f.Ants paths)) 0).2.1 = f.Ants ∧
  ∀ pi ∈ MainGo.antPathsOf f.Ants paths,
    (paths.getD pi []).length - 1 ≤ (MainGo.simulateAnts f paths).length

/-- Claim C9's property: the whole pipeline reports "no solution"
(empty candidate lists, empty Route Set, `none` from both variants'
`main` tails) without crashing. -/
def pipelineUnsolvableOK (f : Farm) : Prop :=
  findAllShortestPaths f = [] ∧
  findNonOverlappingPaths f = [] ∧
  selectBestPaths (findAllShortestPaths f) = [] ∧
  finalPaths f = [] ∧
  MainGo.mainResult f = none ∧
  PartZero.mainResult f = none

/-- The spec's theoretical lower bound
`ceil((ants + Σ route lengths − routeCount) / routeCount)`, which is the
`(ants + sum(pathLengths(paths)) - 1) / len(paths)` of the Go report. -/
def ceilBound (ants sumLens k : Nat) : Nat :=
  (ants + sumLens - 1) / k

/-- An input file whose tunnel line `s-ghost` names the undeclared room
`ghost`: accepted by `main.go`'s parser, rejected by part_000's. -/
def ghostLines : List String :=
  ["2", "##start", "s 0 0", "##end", "e 5 0", "s-ghost", "s-e"]

/-- The farm `main.go`'s parser produces from `ghostLines`. -/
def ghostFarm : Farm :=
  { Ants := 2
    Rooms := [("s", ⟨"s", 0, 0, ["ghost", "e"]⟩),
              ("e", ⟨"e", 5, 0, ["s"]⟩)]
    Start := "s", End := "e" }

/-!
Theorems

The exchange sort of `findNonOverlappingPaths` and `selectBestPaths`
-/

theorem selPass_length {α : Type} (key : α → Nat) (cur : α) (l : List α) :
    (selPass key cur l).2.length = l.length := by
  induction l generalizing cur with
  | nil => simp [selPass]
  | cons y ys ih =>
    by_cases h : key y < key cur <;> simp [selPass, h, ih]

theorem selPass_perm {α : Type} (key : α → Nat) (cur : α) (l : List α) :
    List.Perm ((selPass key cur l).1 :: (selPass key cur l).2) (cur :: l) := by
  induction l generalizing cur with
  | nil => simp [selPass]
  | cons y ys ih =>
    by_cases h : key y < key cur
    · simp only [selPass, if_pos h]
      exact (List.Perm.swap cur _ _).trans ((ih y).cons cur)
    · simp only [selPass, if_neg h]
      exact ((List.Perm.swap y _ _).trans ((ih cur).cons y)).trans
        (List.Perm.swap cur y ys)

theorem selPass_min {α : Type} (key : α → Nat) (cur : α) (l : List α) :
    key (selPass key cur l).1 ≤ key cur ∧
      ∀ x ∈ (selPass key cur l).2, key (selPass key cur l).1 ≤ key x := by
  induction l generalizing cur with
  | nil => simp [selPass]
  | cons y ys ih =>
    by_cases h : key y < key cur
    · simp only [selPass, if_pos h]
      refine ⟨le_of_lt (lt_of_le_of_lt (ih y).1 h), ?_⟩
      intro x hx
      rcases List.mem_cons.mp hx with rfl | hx
      · exact le_of_lt (lt_of_le_of_lt (ih y).1 h)
      · exact (ih y).2 x hx
    · simp only [selPass, if_neg h]
      refine ⟨(ih cur).1, ?_⟩
      intro x hx
      rcases List.mem_cons.mp hx with rfl | hx
      · exact le_trans (ih cur).1 (le_of_not_lt h)
      · exact (ih cur).2 x hx

theorem sortGo_perm {α : Type} (key : α → Nat) :
    ∀ (fuel : Nat) (l : List α), l.length ≤ fuel →
      List.Perm (sortGo key fuel l) l := by
  intro fuel
  induction fuel with
  | zero =>
    intro l hl
    simp only [Nat.le_zero, List.length_eq_zero] at hl
    simp [hl, sortGo]
  | succ fuel ih =>
    intro l hl
    match l with
    | [] => simp [sortGo]
    | x :: xs =>
      simp only [sortGo]
      have hlen : (selPass key x xs).2.length ≤ fuel := by
        rw [selPass_length]
        simpa using hl
      exact ((ih _ hlen).cons _).trans (selPass_perm key x xs)

theorem sortGo_sorted {α : Type} (key : α → Nat) :
    ∀ (fuel : Nat) (l : List α), l.length ≤ fuel →
      (sortGo key fuel l).Pairwise (fun a b => key a ≤ key b) := by
  intro fuel
  induction fuel with
  | zero => intro l _; simp [sortGo]
  | succ fuel ih =>
    intro l hl
    match l with
    | [] => simp [sortGo]
    | x :: xs =>
      simp only [sortGo]
      have hlen : (selPass key x xs).2.length ≤ fuel := by
        rw [selPass_length]
        simpa using hl
      refine List.pairwise_cons.mpr ⟨?_, ih _ hlen⟩
      intro b hb
      have hb' : b ∈ (selPass key x xs).2 :=
        (sortGo_perm key fuel _ hlen).mem_iff.mp hb
      exact (selPass_min key x xs).2 b hb'

/-- Claim C5 (amended): the Disjoint Path Selector tries start's
neighbors in ascending order of degree — the sorted copy is a
permutation of `f.Rooms[f.Start].Links`, nondecreasing in degree — and
runs the greedy accept/skip loop over that order, accumulating the
accepted routes' intermediate rooms as blocked; but degree ties are NOT
always broken by declaration order (the exchange sort is not stable,
see the counterexample). -/
theorem claim_C5 (f : Farm) :
    List.Perm (sortNeighbors f) (startLinks f) ∧
      (sortNeighbors f).Pairwise (fun a b => degree f a ≤ degree f b) ∧
      findNonOverlappingPaths f = nonOverlapLoop f (sortNeighbors f) [] [] := by
  refine ⟨sortGo_perm _ _ _ le_rfl, sortGo_sorted _ _ _ le_rfl, rfl⟩

/-- Claim C5, counterexample to the tie-break sentence: on `farm5` the
start neighbors are declared in order `A`, `B`, `C` with degrees 2, 2, 1;
the spec's stable order is `C`, `A`, `B`, but the code tries `C`, `B`,
`A` — the tie between `A` and `B` is broken against declaration order. -/
theorem claim_C5_cex :
    startLinks farm5 = ["A", "B", "C"] ∧
      degree farm5 "A" = degree farm5 "B" ∧
      specNeighborOrder farm5 = ["C", "A", "B"] ∧
      sortNeighbors farm5 = ["C", "B", "A"] ∧
      sortNeighbors farm5 ≠ specNeighborOrder farm5 := by
  decide

/-!
Concrete evaluations of the pipeline
-/

/-- Claim C1, evaluation at the failing input: on `farmC1` (tunnels
`start-a`, `start-b`, `a-b`, `b-end`) the final Route Set — produced by
`findNonOverlappingPaths` and chosen by `main` because it is larger than
`selectBestPaths`' — contains the routes `[start,a,b,end]` and
`[start,b,end]`, whose intermediate-room sets both contain `b`: the
disjointness invariant is violated, because `bfsShortestPath` never
checks the forced first hop against the blocked set. -/
theorem claim_C1 :
    findNonOverlappingPaths farmC1 =
        [["start", "a", "b", "end"], ["start", "b", "end"]] ∧
      selectBestPaths (findAllShortestPaths farmC1) = [["start", "b", "end"]] ∧
      finalPaths farmC1 =
        [["start", "a", "b", "end"], ["start", "b", "end"]] ∧
      "b" ∈ interRooms ["start", "a", "b", "end"] ∧
      "b" ∈ interRooms ["start", "b", "end"] := by
  decide

/-- Claim C4, evaluation at the failing input: the call
`bfsShortestPath(farmC1, "b", {a, b})` — exactly the call
`findNonOverlappingPaths` makes for the second neighbor after blocking
the first route's intermediate rooms — returns `[start, b, end]`, a
route through the blocked room `b`, instead of reporting "no route"
(no route through first hop `b` avoids the blocked set, since `b`
itself is blocked). -/
theorem claim_C4 :
    bfsShortestPath farmC1 "b" ["a", "b"] = some ["start", "b", "end"] ∧
      "b" ∈ ["a", "b"] ∧
      "b" ∈ interRooms ["start", "b", "end"] := by
  decide

/-- Claim C8: on the concrete graph `start`, `end`, `1` with tunnels
`start-1`, `1-end` and 2 agents, the pipeline selects the single route
`[start, 1, end]` of length 2, assigns both agents to it, and both
variants produce the 3-turn schedule L1-1 / L1-end L2-1 / L2-end. -/
theorem claim_C8 :
    finalPaths farm8 = [["start", "1", "end"]] ∧
      pathLengths (finalPaths farm8) = [2] ∧
      MainGo.antPathsOf farm8.Ants (finalPaths farm8) = [0, 0] ∧
      PartZero.distributeAnts farm8.Ants (finalPaths farm8) = [[1, 2]] ∧
      MainGo.mainResult farm8 =
        some [[(1, "1")], [(1, "end"), (2, "1")], [(2, "end")]] ∧
      PartZero.mainResult farm8 =
        some [[(1, "1")], [(1, "end"), (2, "1")], [(2, "end")]] ∧
      (MainGo.simulateAnts farm8 (finalPaths farm8)).length = 3 := by
  decide

/-- Claim C2, counterexample: the part_000 variant's scheduler does not
obey the claimed move rule.  On `farmSE` (a single direct `start-end`
tunnel, 2 agents) its pipeline produces the schedule
`[[L1-end], [L2-end]]`: in turn 1 agent 2 is unfinished and its
destination is the end room — the claimed rule says it must move — yet
turn 1 contains no move of agent 2, because part_000 claims the tunnel
link `start-end` rather than destination rooms (and `main.go`'s
scheduler, which does follow the rule, moves both agents in turn 1). -/
theorem claim_C2_cex :
    finalPaths farmSE = [["start", "end"]] ∧
      PartZero.distributeAnts farmSE.Ants (finalPaths farmSE) = [[1, 2]] ∧
      PartZero.mainResult farmSE = some [[(1, "end")], [(2, "end")]] ∧
      (2, "end") ∉ ([[(1, "end")], [(2, "end")]].getD 0 []) ∧
      MainGo.mainResult farmSE = some [[(1, "end"), (2, "end")]] := by
  decide

/-- Claim C3, counterexample: on `farmC3` the final Route Set has
lengths 2 and 5 and there is a single agent; `main.go`'s scheduler takes
2 turns, which is below both claimed lower bounds: the theoretical bound
`ceil((1 + 7 − 2) / 2) = 3` and the longest selected route length 5
(the longest route simply receives no agent). -/
theorem claim_C3_cex :
    pathLengths (finalPaths farmC3) = [2, 5] ∧
      farmC3.Ants = 1 ∧
      (MainGo.simulateAnts farmC3 (finalPaths farmC3)).length = 2 ∧
      (MainGo.simulateAnts farmC3 (finalPaths farmC3)).length <
        ceilBound farmC3.Ants 7 2 ∧
      (MainGo.simulateAnts farmC3 (finalPaths farmC3)).length < 5 := by
  decide

/-- Claim C7, evaluation at the failing input: on `farmC1` with 3 agents
the part_000 pipeline emits, in its second turn, the two moves L2-b and
L3-b — two agents entering the same non-end room `b` in one turn (the
routes overlap in `b` because of the C1 bug, and part_000 only enforces
one traversal per tunnel link, not room occupancy). -/
theorem claim_C7 :
    PartZero.mainResult farmC1 =
        some [[(2, "a"), (1, "b")], [(2, "b"), (1, "end"), (3, "b")],
          [(2, "end")], [(3, "end")]] ∧
      (((PartZero.mainResult farmC1).getD []).getD 1 []).filter
          (fun m => m.2 = "b") = [(2, "b"), (3, "b")] ∧
      farmC1.End ≠ "b" := by
  decide

/-!
The allocator's route chooser (claim C6)
-/

theorem pickLoop_range'_spec (score : Nat → Nat) :
    ∀ m : Nat,
      (pickLoop score (List.range' 1 m) (0, score 0)).2 =
          score (pickLoop score (List.range' 1 m) (0, score 0)).1 ∧
        (pickLoop score (List.range' 1 m) (0, score 0)).1 ≤ m ∧
        (∀ i ≤ m, score (pickLoop score (List.range' 1 m) (0, score 0)).1 ≤ score i) ∧
        (∀ i < (pickLoop score (List.range' 1 m) (0, score 0)).1,
          score (pickLoop score (List.range' 1 m) (0, score 0)).1 < score i) := by
  intro m
  induction m with
  | zero =>
    refine ⟨rfl, le_rfl, ?_, ?_⟩
    · intro i hi
      interval_cases i
      exact le_rfl
    · intro i hi
      simp [pickLoop] at hi
  | succ m ih =>
    obtain ⟨hsc, hle, hall, hstrict⟩ := ih
    have hconcat : List.range' 1 (m + 1) = List.range' 1 m ++ [1 + m] := by
      exact List.range'_1_concat 1 m
    simp only [pickLoop, hconcat, List.foldl_append, List.foldl_cons,
      List.foldl_nil] at *
    by_cases h : score (1 + m) <
        (List.foldl (fun acc i => if score i < acc.2 then (i, score i) else acc)
          (0, score 0) (List.range' 1 m)).2
    · rw [if_pos h]
      rw [hsc] at h
      refine ⟨rfl, by omega, ?_, ?_⟩
      · intro i hi
        rcases Nat.lt_or_ge i (m + 1) with hi' | hi'
        · exact le_of_lt (lt_of_lt_of_le h (hall i (by omega)))
        · have : i = 1 + m := by omega
          simp [this]
      · intro i hi
        exact lt_of_lt_of_le h (hall i (by omega))
    · rw [if_neg h]
      rw [hsc] at h
      refine ⟨hsc, by omega, ?_, hstrict⟩
      intro i hi
      rcases Nat.lt_or_ge i (m + 1) with hi' | hi'
      · exact hall i (by omega)
      · have : i = 1 + m := by omega
        rw [this]
        exact le_of_not_lt h

theorem chooseRoute_eq (score : Nat → Nat) (k : Nat) :
    chooseRouteMain score k = chooseRoutePart score k := by
  cases k with
  | zero => rfl
  | succ k =>
    unfold chooseRouteMain chooseRoutePart
    rw [List.range_eq_range', List.range'_succ]
    simp [pickLoop]

/-- Claim C6: for any route-length and assigned-count tables, both
variants' per-agent chooser (`main.go`'s scan over all of `infos`,
part_000's scan from index 1 in `distributeAnts`) picks the same route:
a valid index whose score `length + assigned` is minimal, and the
lowest such index (every strictly smaller index has a strictly larger
score); and the allocation loops of both variants advance exactly by
recording that route for the current agent and bumping its count. -/
theorem claim_C6 (lengths assigned : List Nat) (h : 0 < lengths.length) :
    allocatorChoiceOK lengths assigned := by
  have hspec := pickLoop_range'_spec
    (fun i => lengths.getD i 0 + assigned.getD i 0) (lengths.length - 1)
  have hb : chooseRoutePart (fun i => lengths.getD i 0 + assigned.getD i 0)
      lengths.length =
      (pickLoop (fun i => lengths.getD i 0 + assigned.getD i 0)
        (List.range' 1 (lengths.length - 1))
        (0, lengths.getD 0 0 + assigned.getD 0 0)).1 :=
    rfl
  obtain ⟨_, hle, hall, hstrict⟩ := hspec
  refine ⟨chooseRoute_eq _ _, ?_, ?_, ?_, fun a antPaths => rfl,
    fun a dist => rfl⟩
  · rw [hb]; omega
  · intro i hi
    exact hall i (by omega)
  · intro i hi
    exact hstrict i hi

/-- Claim C6, witness: lengths `[3, 2]` with counts `[0, 1]` give the
tied scores `[3, 3]`; the chooser picks route 0, the lowest index. -/
theorem claim_C6_witness :
    0 < ([3, 2] : List Nat).length ∧ allocatorChoiceOK [3, 2] [0, 1] :=
  ⟨by decide, claim_C6 [3, 2] [0, 1] (by decide)⟩

/-!
The move rule of `main.go`'s scheduler (claim C2)
-/

theorem simTurn_ids (endR : String) :
    ∀ (sts : List (List String × Nat)) (i : Nat) (occ : List String),
      ∀ m ∈ (MainGo.simTurn endR sts i occ).2.1,
        i + 1 ≤ m.1 ∧ m.1 ≤ i + sts.length := by
  intro sts
  induction sts with
  | nil => intro i occ m hm; simp [MainGo.simTurn] at hm
  | cons st rest ih =>
    intro i occ m hm
    obtain ⟨r, p⟩ := st
    simp only [MainGo.simTurn] at hm
    by_cases h1 : r.length - 1 ≤ p
    · rw [if_pos h1] at hm
      simp only at hm
      have := ih (i + 1) occ m hm
      simp only [List.length_cons]
      omega
    · rw [if_neg h1] at hm
      by_cases h2 : r.getD (p + 1) "" = endR ∨ r.getD (p + 1) "" ∉ occ
      · rw [if_pos h2] at hm
        simp only [List.mem_cons] at hm
        rcases hm with rfl | hm
        · simp only [List.length_cons]; omega
        · have := ih (i + 1) _ m hm
          simp only [List.length_cons]
          omega
      · rw [if_neg h2] at hm
        simp only at hm
        have := ih (i + 1) occ m hm
        simp only [List.length_cons]
        omega

theorem claimedBefore_nil_of_ge (endR : String) (mvs : List (Nat × String))
    (id : Nat) (h : ∀ m ∈ mvs, id ≤ m.1) : claimedBefore endR mvs id = [] := by
  unfold claimedBefore
  have hf : mvs.filter (fun m => decide (m.1 < id ∧ m.2 ≠ endR)) = [] := by
    refine List.filter_eq_nil_iff.mpr ?_
    intro m hm
    have := h m hm
    simp only [decide_eq_true_eq, ne_eq, not_and]
    intro hc
    omega
  rw [hf, List.map_nil]

theorem claimedBefore_cons (endR : String) (a : Nat × String)
    (mvs : List (Nat × String)) (id : Nat) :
    claimedBefore endR (a :: mvs) id =
      if a.1 < id ∧ a.2 ≠ endR then a.2 :: claimedBefore endR mvs id
      else claimedBefore endR mvs id := by
  unfold claimedBefore
  by_cases h : a.1 < id ∧ a.2 ≠ endR
  · rw [if_pos h]
    rw [List.filter_cons_of_pos (by simpa using h), List.map_cons]
  · rw [if_neg h]
    rw [List.filter_cons_of_neg (by simpa using h)]

theorem simTurn_spec (endR : String) :
    ∀ (sts : List (List String × Nat)) (i : Nat) (occ : List String) (j : Nat),
      j < sts.length →
      ((antUnfinished sts j ∧
          MoveOK endR occ (MainGo.simTurn endR sts i occ).2.1 (i + j + 1)
            (antDest sts j)) →
        antRoute (MainGo.simTurn endR sts i occ).1 j = antRoute sts j ∧
        antPos (MainGo.simTurn endR sts i occ).1 j = antPos sts j + 1 ∧
        (i + j + 1, antDest sts j) ∈ (MainGo.simTurn endR sts i occ).2.1) ∧
      (¬ (antUnfinished sts j ∧
          MoveOK endR occ (MainGo.simTurn endR sts i occ).2.1 (i + j + 1)
            (antDest sts j)) →
        antRoute (MainGo.simTurn endR sts i occ).1 j = antRoute sts j ∧
        antPos (MainGo.simTurn endR sts i occ).1 j = antPos sts j ∧
        ∀ x, (i + j + 1, x) ∉ (MainGo.simTurn endR sts i occ).2.1) := by
  intro sts
  induction sts with
  | nil =>
    intro i occ j hj
    simp at hj
  | cons st rest ih =>
    intro i occ j hj
    obtain ⟨r, p⟩ := st
    by_cases h1 : r.length - 1 ≤ p
    · -- finished agent: skipped, nothing changes for it
      have hred : MainGo.simTurn endR ((r, p) :: rest) i occ =
          ((r, p) :: (MainGo.simTurn endR rest (i + 1) occ).1,
            (MainGo.simTurn endR rest (i + 1) occ).2) := by
        simp only [MainGo.simTurn, if_pos h1]
      rw [hred]
      cases j with
      | zero =>
        constructor
        · rintro ⟨hu, _⟩
          exact absurd hu (by simp [antUnfinished, antRoute, antPos]; omega)
        · intro _
          refine ⟨rfl, rfl, ?_⟩
          intro x hx
          have := simTurn_ids endR rest (i + 1) occ (i + 0 + 1, x) hx
          omega
      | succ j' =>
        have hj' : j' < rest.length := by simpa using hj
        have hih := ih (i + 1) occ j' hj'
        have harith : i + 1 + j' + 1 = i + (j' + 1) + 1 := by omega
        constructor
        · rintro ⟨hu, hok⟩
          have hu' : antUnfinished rest j' := hu
          have hok' : MoveOK endR occ
              (MainGo.simTurn endR rest (i + 1) occ).2.1 (i + 1 + j' + 1)
              (antDest rest j') := by
            rw [harith]; exact hok
          obtain ⟨hr, hp, hm⟩ := hih.1 ⟨hu', hok'⟩
          refine ⟨hr, hp, ?_⟩
          rw [← harith]; exact hm
        · intro hno
          have hno' : ¬ (antUnfinished rest j' ∧
              MoveOK endR occ (MainGo.simTurn endR rest (i + 1) occ).2.1
                (i + 1 + j' + 1) (antDest rest j')) := by
            rw [harith]; exact hno
          obtain ⟨hr, hp, hm⟩ := hih.2 hno'
          refine ⟨hr, hp, ?_⟩
          intro x
          rw [← harith]; exact hm x
    · by_cases h2 : r.getD (p + 1) "" = endR ∨ r.getD (p + 1) "" ∉ occ
      · -- the agent moves
        have hred : MainGo.simTurn endR ((r, p) :: rest) i occ =
            ((r, p + 1) ::
                (MainGo.simTurn endR rest (i + 1)
                  (if r.getD (p + 1) "" = endR then occ
                   else r.getD (p + 1) "" :: occ)).1,
              (i + 1, r.getD (p + 1) "") ::
                (MainGo.simTurn endR rest (i + 1)
                  (if r.getD (p + 1) "" = endR then occ
                   else r.getD (p + 1) "" :: occ)).2.1,
              (if r.getD (p + 1) "" = endR then 1 else 0) +
                (MainGo.simTurn endR rest (i + 1)
                  (if r.getD (p + 1) "" = endR then occ
                   else r.getD (p + 1) "" :: occ)).2.2.1,
              (MainGo.simTurn endR rest (i + 1)
                  (if r.getD (p + 1) "" = endR then occ
                   else r.getD (p + 1) "" :: occ)).2.2.2) := by
          simp only [MainGo.simTurn, if_neg h1, if_pos h2]
        set occ2 := if r.getD (p + 1) "" = endR then occ
          else r.getD (p + 1) "" :: occ with hocc2
        rw [hred]
        cases j with
        | zero =>
          constructor
          · intro _
            refine ⟨rfl, rfl, ?_⟩
            simp [antDest, antRoute, antPos]
          · intro hno
            exfalso
            apply hno
            refine ⟨by simp [antUnfinished, antRoute, antPos]; omega, ?_⟩
            rcases h2 with he | hno2
            · exact Or.inl (by simpa [antDest, antRoute, antPos] using he)
            · refine Or.inr ⟨by simpa [antDest, antRoute, antPos] using hno2, ?_⟩
              have hnil : claimedBefore endR
                  ((i + 1, r.getD (p + 1) "") ::
                    (MainGo.simTurn endR rest (i + 1) occ2).2.1) (i + 0 + 1) = [] := by
                apply claimedBefore_nil_of_ge
                intro m hm
                rcases List.mem_cons.mp hm with rfl | hm
                · omega
                · have := simTurn_ids endR rest (i + 1) occ2 m hm
                  omega
              rw [hnil]
              simp
        | succ j' =>
          have hj' : j' < rest.length := by simpa using hj
          have hih := ih (i + 1) occ2 j' hj'
          have harith : i + 1 + j' + 1 = i + (j' + 1) + 1 := by omega
          -- the head's move claims its destination for the tail exactly
          -- as MoveOK with the full move list describes
          have hokiff : ∀ x : String,
              MoveOK endR occ
                ((i + 1, r.getD (p + 1) "") ::
                  (MainGo.simTurn endR rest (i + 1) occ2).2.1)
                (i + (j' + 1) + 1) x ↔
              MoveOK endR occ2
                (MainGo.simTurn endR rest (i + 1) occ2).2.1
                (i + 1 + j' + 1) x := by
            intro x
            unfold MoveOK
            rw [← harith, claimedBefore_cons]
            by_cases he : r.getD (p + 1) "" = endR
            · rw [if_neg (fun hc => hc.2 he), hocc2, if_pos he]
            · rw [if_pos ⟨show i + 1 < i + 1 + j' + 1 by omega, he⟩,
                hocc2, if_neg he]
              constructor
              · rintro (h | ⟨ho, hc⟩)
                · exact Or.inl h
                · simp only [List.mem_cons, not_or] at hc ⊢
                  exact Or.inr ⟨⟨hc.1, ho⟩, hc.2⟩
              · rintro (h | ⟨ho, hc⟩)
                · exact Or.inl h
                · simp only [List.mem_cons, not_or] at ho ⊢
                  exact Or.inr ⟨ho.2, ho.1, hc⟩
          constructor
          · rintro ⟨hu, hok⟩
            obtain ⟨hr, hp, hm⟩ := hih.1 ⟨hu, (hokiff _).mp hok⟩
            refine ⟨hr, hp, ?_⟩
            refine List.mem_cons.mpr (Or.inr ?_)
            rw [harith] at hm
            exact hm
          · intro hno
            have hno' : ¬ (antUnfinished rest j' ∧
                MoveOK endR occ2 (MainGo.simTurn endR rest (i + 1) occ2).2.1
                  (i + 1 + j' + 1) (antDest rest j')) := by
              intro hc
              exact hno ⟨hc.1, (hokiff _).mpr hc.2⟩
            obtain ⟨hr, hp, hm⟩ := hih.2 hno'
            refine ⟨hr, hp, ?_⟩
            intro x hx
            rcases List.mem_cons.mp hx with hx0 | hx
            · have : i + (j' + 1) + 1 = i + 1 := congrArg Prod.fst hx0
              omega
            · rw [harith] at hm
              exact hm x hx
      · -- the agent is blocked: its destination is occupied from outside
        have hred : MainGo.simTurn endR ((r, p) :: rest) i occ =
            ((r, p) :: (MainGo.simTurn endR rest (i + 1) occ).1,
              (MainGo.simTurn endR rest (i + 1) occ).2) := by
          simp only [MainGo.simTurn, if_neg h1, if_neg h2]
        rw [hred]
        push_neg at h2
        cases j with
        | zero =>
          constructor
          · rintro ⟨hu, hok⟩
            exfalso
            rcases hok with he | ⟨ho, _⟩
            · exact h2.1 (by simpa [antDest, antRoute, antPos] using he)
            · exact ho (by simpa [antDest, antRoute, antPos] using h2.2)
          · intro _
            refine ⟨rfl, rfl, ?_⟩
            intro x hx
            have := simTurn_ids endR rest (i + 1) occ (i + 0 + 1, x) hx
            omega
        | succ j' =>
          have hj' : j' < rest.length := by simpa using hj
          have hih := ih (i + 1) occ j' hj'
          have harith : i + 1 + j' + 1 = i + (j' + 1) + 1 := by omega
          constructor
          · rintro ⟨hu, hok⟩
            have hok' : MoveOK endR occ
                (MainGo.simTurn endR rest (i + 1) occ).2.1 (i + 1 + j' + 1)
                (antDest rest j') := by
              rw [harith]; exact hok
            obtain ⟨hr, hp, hm⟩ := hih.1 ⟨hu, hok'⟩
            refine ⟨hr, hp, ?_⟩
            rw [← harith]; exact hm
          · intro hno
            have hno' : ¬ (antUnfinished rest j' ∧
                MoveOK endR occ (MainGo.simTurn endR rest (i + 1) occ).2.1
                  (i + 1 + j' + 1) (antDest rest j')) := by
              rw [harith]; exact hno
            obtain ⟨hr, hp, hm⟩ := hih.2 hno'
            refine ⟨hr, hp, ?_⟩
            intro x
            rw [← harith]; exact hm x


/-- Claim C2 (amended to `main.go`'s scheduler; see `claim_C2_cex` for
the part_000 variant): in every turn, each not-yet-finished agent,
considered in increasing agent-id order, moves to the next room of its
route if and only if that destination is the end room or no earlier
agent's move in the same turn has claimed it; on success its position
advances by one, otherwise it keeps its position, and the loop retries
it in the next turn with the occupied set reset. -/
theorem claim_C2 (endR : String) (sts : List (List String × Nat)) (j : Nat)
    (hj : j < sts.length) : schedulerStepOK endR sts j := by
  have hspec := simTurn_spec endR sts 0 [] j hj
  rw [Nat.zero_add] at hspec
  refine ⟨hspec.1, hspec.2, ?_⟩
  intro ants fuel fin hfin
  simp only [MainGo.simLoop, if_pos hfin]

/-- Claim C2, witness: two agents on the route `start → 1 → end`; the
second agent of `farm8`'s first turn is blocked by the first agent's
claim on room `1`. -/
theorem claim_C2_witness :
    1 < ([(["start", "1", "end"], 0), (["start", "1", "end"], 0)] :
        List (List String × Nat)).length ∧
      schedulerStepOK "end"
        [(["start", "1", "end"], 0), (["start", "1", "end"], 0)] 1 :=
  ⟨by decide, claim_C2 "end" _ 1 (by decide)⟩

/-!
Termination and turn-count bounds of `main.go`'s scheduler (claim C3)
-/

theorem simTurn_length (endR : String) :
    ∀ (sts : List (List String × Nat)) (i : Nat) (occ : List String),
      (MainGo.simTurn endR sts i occ).1.length = sts.length := by
  intro sts
  induction sts with
  | nil => intro i occ; rfl
  | cons st rest ih =>
    intro i occ
    obtain ⟨r, p⟩ := st
    simp only [MainGo.simTurn]
    by_cases h1 : r.length - 1 ≤ p
    · rw [if_pos h1]; simp [ih]
    · rw [if_neg h1]
      by_cases h2 : r.getD (p + 1) "" = endR ∨ r.getD (p + 1) "" ∉ occ
      · rw [if_pos h2]; simp [ih]
      · rw [if_neg h2]; simp [ih]

theorem sumRem_cons (r : List String) (p : Nat) (l : List (List String × Nat)) :
    MainGo.sumRem ((r, p) :: l) = (r.length - 1 - p) + MainGo.sumRem l := by
  simp [MainGo.sumRem]

theorem simTurn_sumRem (endR : String) :
    ∀ (sts : List (List String × Nat)) (i : Nat) (occ : List String),
      MainGo.sumRem (MainGo.simTurn endR sts i occ).1 +
        (MainGo.simTurn endR sts i occ).2.1.length = MainGo.sumRem sts := by
  intro sts
  induction sts with
  | nil => intro i occ; rfl
  | cons st rest ih =>
    intro i occ
    obtain ⟨r, p⟩ := st
    simp only [MainGo.simTurn]
    by_cases h1 : r.length - 1 ≤ p
    · rw [if_pos h1]
      simp only [sumRem_cons]
      have := ih (i + 1) occ
      omega
    · rw [if_neg h1]
      by_cases h2 : r.getD (p + 1) "" = endR ∨ r.getD (p + 1) "" ∉ occ
      · rw [if_pos h2]
        simp only [sumRem_cons, List.length_cons]
        have := ih (i + 1)
          (if r.getD (p + 1) "" = endR then occ else r.getD (p + 1) "" :: occ)
        omega
      · rw [if_neg h2]
        simp only [sumRem_cons]
        have := ih (i + 1) occ
        omega

theorem simTurn_moves_pos (endR : String) :
    ∀ (sts : List (List String × Nat)) (i : Nat),
      (∃ rp ∈ sts, rp.2 < rp.1.length - 1) →
      1 ≤ (MainGo.simTurn endR sts i []).2.1.length := by
  intro sts
  induction sts with
  | nil =>
    rintro i ⟨rp, hmem, _⟩
    simp at hmem
  | cons st rest ih =>
    intro i hex
    obtain ⟨r, p⟩ := st
    simp only [MainGo.simTurn]
    by_cases h1 : r.length - 1 ≤ p
    · rw [if_pos h1]
      simp only
      apply ih (i + 1)
      rcases hex with ⟨rp, hmem, hrp⟩
      rcases List.mem_cons.mp hmem with heq | hmem
      · exfalso
        rw [heq] at hrp
        simp only at hrp
        omega
      · exact ⟨rp, hmem, hrp⟩
    · rw [if_neg h1]
      rw [if_pos (Or.inr (by simp))]
      simp

theorem routeWF_dest_iff (endR : String) (r : List String) (p : Nat)
    (hwf : RouteWF endR r) (hp : p < r.length - 1) :
    (r.getD (p + 1) "" = endR ↔ p + 1 = r.length - 1) := by
  obtain ⟨hlen, hlast, hnot⟩ := hwf
  have hp1 : p + 1 < r.length := by omega
  have hgd : r.getD (p + 1) "" = r[p + 1] := by
    rw [List.getD_eq_getElem?_getD, List.getElem?_eq_getElem hp1]
    rfl
  constructor
  · intro he
    by_contra hne
    have hlt : p + 1 < r.dropLast.length := by
      rw [List.length_dropLast]; omega
    apply hnot
    have hdl : r.dropLast[p + 1] = r[p + 1] :=
      List.getElem_dropLast r (p + 1) hlt
    rw [← he, hgd, ← hdl]
    exact List.getElem_mem hlt
  · intro he
    rw [← hlast, List.getLastD_eq_getLast?, List.getLast?_eq_getElem?]
    rw [List.getD_eq_getElem?_getD, he]

theorem countDone_cons (r : List String) (p : Nat)
    (l : List (List String × Nat)) :
    countDone ((r, p) :: l) =
      (if r.length - 1 ≤ p then 1 else 0) + countDone l := by
  unfold countDone
  rw [List.filter_cons]
  by_cases h : r.length - 1 ≤ p
  · rw [if_pos (by simpa using h), if_pos h, List.length_cons]
    omega
  · rw [if_neg (by simpa using h), if_neg h]
    omega

theorem simTurn_countDone (endR : String) :
    ∀ (sts : List (List String × Nat)) (i : Nat) (occ : List String),
      StatesWF endR sts →
      countDone (MainGo.simTurn endR sts i occ).1 =
        countDone sts + (MainGo.simTurn endR sts i occ).2.2.1 := by
  intro sts
  induction sts with
  | nil => intro i occ _; rfl
  | cons st rest ih =>
    intro i occ hwf
    obtain ⟨r, p⟩ := st
    have hhead : RouteWF endR r ∧ p ≤ r.length - 1 :=
      hwf (r, p) (List.mem_cons_self _ _)
    have htail : StatesWF endR rest := fun rp hrp => hwf rp (List.mem_cons_of_mem _ hrp)
    simp only [MainGo.simTurn]
    by_cases h1 : r.length - 1 ≤ p
    · rw [if_pos h1]
      simp only [countDone_cons, if_pos h1]
      have := ih (i + 1) occ htail
      omega
    · rw [if_neg h1]
      by_cases h2 : r.getD (p + 1) "" = endR ∨ r.getD (p + 1) "" ∉ occ
      · rw [if_pos h2]
        have hiff := routeWF_dest_iff endR r p hhead.1 (by omega)
        by_cases he : r.getD (p + 1) "" = endR
        · have hp1 : p + 1 = r.length - 1 := hiff.mp he
          have hih := ih (i + 1) occ htail
          simp only [countDone_cons, if_neg h1, if_pos he,
            if_pos (le_of_eq hp1.symm)]
          omega
        · have hp1 : ¬ (r.length - 1 ≤ p + 1) := by
            intro hc
            exact he (hiff.mpr (by omega))
          have hih := ih (i + 1) (r.getD (p + 1) "" :: occ) htail
          simp only [countDone_cons, if_neg h1, if_neg he, if_neg hp1]
          omega
      · rw [if_neg h2]
        simp only [countDone_cons, if_neg h1]
        have := ih (i + 1) occ htail
        omega

theorem simTurn_WF (endR : String) :
    ∀ (sts : List (List String × Nat)) (i : Nat) (occ : List String),
      StatesWF endR sts → StatesWF endR (MainGo.simTurn endR sts i occ).1 := by
  intro sts
  induction sts with
  | nil => intro i occ _ rp hrp; simp [MainGo.simTurn] at hrp
  | cons st rest ih =>
    intro i occ hwf rp hrp
    obtain ⟨r, p⟩ := st
    have hhead : RouteWF endR r ∧ p ≤ r.length - 1 :=
      hwf (r, p) (List.mem_cons_self _ _)
    have htail : StatesWF endR rest := fun x hx => hwf x (List.mem_cons_of_mem _ hx)
    simp only [MainGo.simTurn] at hrp
    by_cases h1 : r.length - 1 ≤ p
    · rw [if_pos h1] at hrp
      simp only [List.mem_cons] at hrp
      rcases hrp with rfl | hrp
      · exact hhead
      · exact ih (i + 1) occ htail rp hrp
    · rw [if_neg h1] at hrp
      by_cases h2 : r.getD (p + 1) "" = endR ∨ r.getD (p + 1) "" ∉ occ
      · rw [if_pos h2] at hrp
        simp only [List.mem_cons] at hrp
        rcases hrp with rfl | hrp
        · exact ⟨hhead.1, show p + 1 ≤ r.length - 1 by omega⟩
        · exact ih (i + 1) _ htail rp hrp
      · rw [if_neg h2] at hrp
        simp only [List.mem_cons] at hrp
        rcases hrp with rfl | hrp
        · exact hhead
        · exact ih (i + 1) occ htail rp hrp

theorem simTurn_pos_le (endR : String) :
    ∀ (sts : List (List String × Nat)) (i : Nat) (occ : List String) (j : Nat),
      antRoute (MainGo.simTurn endR sts i occ).1 j = antRoute sts j ∧
        antPos (MainGo.simTurn endR sts i occ).1 j ≤ antPos sts j + 1 := by
  intro sts
  induction sts with
  | nil =>
    intro i occ j
    exact ⟨rfl, by simp [antPos, MainGo.simTurn]⟩
  | cons st rest ih =>
    intro i occ j
    obtain ⟨r, p⟩ := st
    simp only [MainGo.simTurn]
    by_cases h1 : r.length - 1 ≤ p
    · rw [if_pos h1]
      cases j with
      | zero => exact ⟨rfl, by simp [antPos]⟩
      | succ j' => exact ih (i + 1) occ j'
    · rw [if_neg h1]
      by_cases h2 : r.getD (p + 1) "" = endR ∨ r.getD (p + 1) "" ∉ occ
      · rw [if_pos h2]
        cases j with
        | zero => exact ⟨rfl, by simp [antPos]⟩
        | succ j' => exact ih (i + 1) _ j'
      · rw [if_neg h2]
        cases j with
        | zero => exact ⟨rfl, by simp [antPos]⟩
        | succ j' => exact ih (i + 1) occ j'

theorem getD_eq_getElem_of_lt {α : Type} (l : List α) (d : α) (i : Nat)
    (h : i < l.length) : l.getD i d = l[i] := by
  rw [List.getD_eq_getElem?_getD, List.getElem?_eq_getElem h]
  rfl

theorem all_done_of_sumRem_zero (sts : List (List String × Nat))
    (h : MainGo.sumRem sts = 0) : ∀ rp ∈ sts, rp.1.length - 1 ≤ rp.2 := by
  intro rp hrp
  have hmem : rp.1.length - 1 - rp.2 ∈
      sts.map (fun rp => rp.1.length - 1 - rp.2) :=
    List.mem_map_of_mem _ hrp
  have := List.sum_eq_zero_iff.mp h _ hmem
  omega

theorem countDone_eq_length (sts : List (List String × Nat))
    (h : ∀ rp ∈ sts, rp.1.length - 1 ≤ rp.2) : countDone sts = sts.length := by
  unfold countDone
  rw [List.filter_eq_self.mpr (fun rp hrp => by simpa using h rp hrp)]

theorem all_done_of_countDone (sts : List (List String × Nat))
    (h : countDone sts = sts.length) : ∀ rp ∈ sts, rp.1.length - 1 ≤ rp.2 := by
  induction sts with
  | nil => simp
  | cons st rest ih =>
    obtain ⟨r, p⟩ := st
    rw [countDone_cons, List.length_cons] at h
    by_cases hd : r.length - 1 ≤ p
    · rw [if_pos hd] at h
      intro rp hrp
      rcases List.mem_cons.mp hrp with rfl | hrp
      · exact hd
      · exact ih (by omega) rp hrp
    · rw [if_neg hd] at h
      have hle : countDone rest ≤ rest.length := List.length_filter_le _ _
      exact fun rp hrp => absurd h (by omega)

theorem exists_undone (sts : List (List String × Nat))
    (h : countDone sts < sts.length) :
    ∃ rp ∈ sts, rp.2 < rp.1.length - 1 := by
  by_contra hno
  push_neg at hno
  have := countDone_eq_length sts (fun rp hrp => hno rp hrp)
  omega

theorem simLoop_term (endR : String) (ants : Nat) :
    ∀ (fuel : Nat) (sts : List (List String × Nat)) (fin : Nat),
      StatesWF endR sts → ants = sts.length → fin = countDone sts →
      MainGo.sumRem sts ≤ fuel →
      (MainGo.simLoop endR ants fuel sts fin).2.2 = ants ∧
        countDone (MainGo.simLoop endR ants fuel sts fin).2.1 = ants ∧
        (MainGo.simLoop endR ants fuel sts fin).2.1.length = ants ∧
        StatesWF endR (MainGo.simLoop endR ants fuel sts fin).2.1 := by
  intro fuel
  induction fuel with
  | zero =>
    intro sts fin hwf hlen hfin hfuel
    have hall : ∀ rp ∈ sts, rp.1.length - 1 ≤ rp.2 :=
      all_done_of_sumRem_zero sts (by omega)
    have hcd := countDone_eq_length sts hall
    exact ⟨show fin = ants by omega, show countDone sts = ants by omega,
      show sts.length = ants by omega, hwf⟩
  | succ fuel ih =>
    intro sts fin hwf hlen hfin hfuel
    by_cases hlt : fin < ants
    · have hex : ∃ rp ∈ sts, rp.2 < rp.1.length - 1 :=
        exists_undone sts (by omega)
      have hmv := simTurn_moves_pos endR sts 0 hex
      have hsum := simTurn_sumRem endR sts 0 []
      have hwf2 := simTurn_WF endR sts 0 [] hwf
      have hlen2 := simTurn_length endR sts 0 []
      have hcd := simTurn_countDone endR sts 0 [] hwf
      have hrec := ih (MainGo.simTurn endR sts 0 []).1
        (fin + (MainGo.simTurn endR sts 0 []).2.2.1)
        hwf2 (by omega) (by omega) (by omega)
      simp only [MainGo.simLoop, if_pos hlt]
      exact hrec
    · simp only [MainGo.simLoop, if_neg hlt]
      have hcdle : countDone sts ≤ sts.length := List.length_filter_le _ _
      exact ⟨show fin = ants by omega, show countDone sts = ants by omega,
        show sts.length = ants by omega, hwf⟩

theorem simLoop_pos_le (endR : String) (ants : Nat) :
    ∀ (fuel : Nat) (sts : List (List String × Nat)) (fin : Nat) (j : Nat),
      antRoute (MainGo.simLoop endR ants fuel sts fin).2.1 j = antRoute sts j ∧
        antPos (MainGo.simLoop endR ants fuel sts fin).2.1 j ≤
          antPos sts j + (MainGo.simLoop endR ants fuel sts fin).1.length := by
  intro fuel
  induction fuel with
  | zero => intro sts fin j; exact ⟨rfl, Nat.le_add_right _ _⟩
  | succ fuel ih =>
    intro sts fin j
    by_cases hlt : fin < ants
    · have hturn := simTurn_pos_le endR sts 0 [] j
      have hrec := ih (MainGo.simTurn endR sts 0 []).1
        (fin + (MainGo.simTurn endR sts 0 []).2.2.1) j
      have hgo : MainGo.simLoop endR ants (fuel + 1) sts fin =
          ((MainGo.simTurn endR sts 0 []).2.1 ::
            (MainGo.simLoop endR ants fuel (MainGo.simTurn endR sts 0 []).1
              (fin + (MainGo.simTurn endR sts 0 []).2.2.1)).1,
           (MainGo.simLoop endR ants fuel (MainGo.simTurn endR sts 0 []).1
              (fin + (MainGo.simTurn endR sts 0 []).2.2.1)).2) := by
        simp only [MainGo.simLoop, if_pos hlt]
      rw [hgo]
      refine ⟨hrec.1.trans hturn.1, ?_⟩
      have h1 := hrec.2
      have h2 := hturn.2
      dsimp only
      simp only [List.length_cons]
      omega
    · have hstop : MainGo.simLoop endR ants (fuel + 1) sts fin =
          ([], sts, fin) := by
        simp only [MainGo.simLoop, if_neg hlt]
      rw [hstop]
      exact ⟨rfl, Nat.le_add_right _ _⟩

theorem chooseRouteMain_lt (score : Nat → Nat) (k : Nat) (h : 0 < k) :
    chooseRouteMain score k < k := by
  rw [chooseRoute_eq]
  have := (pickLoop_range'_spec score (k - 1)).2.1
  unfold chooseRoutePart
  omega

theorem assignLoop_sub (lengths : List Nat) (hk : 0 < lengths.length) :
    ∀ (a : Nat) (assigned acc : List Nat),
      (∀ x ∈ acc, x < lengths.length) →
      ∀ x ∈ MainGo.assignLoop lengths a assigned acc, x < lengths.length := by
  intro a
  induction a with
  | zero => intro assigned acc hacc x hx; exact hacc x hx
  | succ a ih =>
    intro assigned acc hacc x hx
    simp only [MainGo.assignLoop] at hx
    refine ih _ _ ?_ x hx
    intro y hy
    rcases List.mem_append.mp hy with hy | hy
    · exact hacc y hy
    · have hyy : y = chooseRouteMain
          (fun i => lengths.getD i 0 + assigned.getD i 0) lengths.length := by
        simpa using hy
      rw [hyy]
      exact chooseRouteMain_lt _ _ hk

theorem assignLoop_length (lengths : List Nat) :
    ∀ (a : Nat) (assigned acc : List Nat),
      (MainGo.assignLoop lengths a assigned acc).length = acc.length + a := by
  intro a
  induction a with
  | zero => intro _ _; rfl
  | succ a ih =>
    intro assigned acc
    simp only [MainGo.assignLoop]
    rw [ih]
    simp
    omega

theorem initStates_length (paths : List (List String)) (ap : List Nat) :
    (MainGo.initStates paths ap).length = ap.length := by
  simp [MainGo.initStates]

theorem initStates_mem (paths : List (List String)) (ap : List Nat)
    (h : ∀ x ∈ ap, x < paths.length) :
    ∀ rp ∈ MainGo.initStates paths ap, rp.2 = 0 ∧ rp.1 ∈ paths := by
  intro rp hrp
  simp only [MainGo.initStates, List.mem_map] at hrp
  obtain ⟨pi, hpi, rfl⟩ := hrp
  refine ⟨rfl, ?_⟩
  have hlt := h pi hpi
  have hgd : paths.getD pi [] = paths[pi] := getD_eq_getElem_of_lt _ _ _ hlt
  simp only
  rw [hgd]
  exact List.getElem_mem hlt

theorem countDone_init (endR : String) (paths : List (List String))
    (ap : List Nat) (h : ∀ x ∈ ap, x < paths.length)
    (hWF : ∀ p ∈ paths, RouteWF endR p) :
    countDone (MainGo.initStates paths ap) = 0 := by
  have hnil : (MainGo.initStates paths ap).filter
      (fun rp => decide (rp.1.length - 1 ≤ rp.2)) = [] := by
    apply List.filter_eq_nil_iff.mpr
    intro rp hrp
    obtain ⟨hz, hmem⟩ := initStates_mem paths ap h rp hrp
    have hlen := (hWF rp.1 hmem).1
    simp only [decide_eq_true_eq]
    omega
  unfold countDone
  rw [hnil]
  rfl

/-- Claim C3 (amended): for every farm and non-empty path set made of
well-formed routes, the scheduler terminates — with fuel equal to the
total remaining distance the loop exits with its finished counter equal
to the agent count and every agent at the last index of its route — and
the number of turns is at least the edge count of every route that is
assigned at least one agent.  The claim's two stated lower bounds
(`ceil((ants + Σlengths − k) / k)` and the longest selected route) do
not hold: see the counterexample, where the longest route receives no
agent. -/
theorem claim_C3 (f : Farm) (paths : List (List String))
    (hne : paths ≠ []) (hWF : ∀ p ∈ paths, RouteWF f.End p) :
    schedulerRunOK f paths := by
  have hk : 0 < paths.length := List.length_pos.mpr hne
  have hkl : 0 < (pathLengths paths).length := by
    simpa [pathLengths] using hk
  have hsub : ∀ x ∈ MainGo.antPathsOf f.Ants paths, x < paths.length := by
    intro x hx
    have := assignLoop_sub (pathLengths paths) hkl f.Ants
      (paths.map fun _ => 0) [] (by simp) x hx
    simpa [pathLengths] using this
  have hlen : (MainGo.antPathsOf f.Ants paths).length = f.Ants := by
    unfold MainGo.antPathsOf
    rw [assignLoop_length]
    simp
  have hstlen : (MainGo.initStates paths (MainGo.antPathsOf f.Ants paths)).length
      = f.Ants := by
    rw [initStates_length, hlen]
  have hSWF : StatesWF f.End
      (MainGo.initStates paths (MainGo.antPathsOf f.Ants paths)) := by
    intro rp hrp
    obtain ⟨hz, hmem⟩ := initStates_mem paths _ hsub rp hrp
    exact ⟨hWF rp.1 hmem, by omega⟩
  have hcd0 : countDone (MainGo.initStates paths (MainGo.antPathsOf f.Ants paths))
      = 0 := countDone_init f.End paths _ hsub hWF
  have hterm := simLoop_term f.End f.Ants
    (MainGo.sumRem (MainGo.initStates paths (MainGo.antPathsOf f.Ants paths)) + 1)
    (MainGo.initStates paths (MainGo.antPathsOf f.Ants paths)) 0
    hSWF hstlen.symm hcd0.symm (by omega)
  refine ⟨hterm.1, hterm.2.1, ?_⟩
  intro pi hpi
  obtain ⟨j, hj, hget⟩ := List.getElem_of_mem hpi
  have hj2 : j < (MainGo.initStates paths (MainGo.antPathsOf f.Ants paths)).length := by
    rw [initStates_length]
    exact hj
  have hRoute0 : antRoute (MainGo.initStates paths (MainGo.antPathsOf f.Ants paths)) j
      = paths.getD pi [] := by
    unfold antRoute
    rw [getD_eq_getElem_of_lt _ _ _ hj2]
    simp only [MainGo.initStates, List.getElem_map, hget]
  have hPos0 : antPos (MainGo.initStates paths (MainGo.antPathsOf f.Ants paths)) j
      = 0 := by
    unfold antPos
    rw [getD_eq_getElem_of_lt _ _ _ hj2]
    simp only [MainGo.initStates, List.getElem_map]
  have hploop := simLoop_pos_le f.End f.Ants
    (MainGo.sumRem (MainGo.initStates paths (MainGo.antPathsOf f.Ants paths)) + 1)
    (MainGo.initStates paths (MainGo.antPathsOf f.Ants paths)) 0 j
  have hreslen : (MainGo.simLoop f.End f.Ants
      (MainGo.sumRem (MainGo.initStates paths (MainGo.antPathsOf f.Ants paths)) + 1)
      (MainGo.initStates paths (MainGo.antPathsOf f.Ants paths)) 0).2.1.length
      = f.Ants := hterm.2.2.1
  have hjres : j < (MainGo.simLoop f.End f.Ants
      (MainGo.sumRem (MainGo.initStates paths (MainGo.antPathsOf f.Ants paths)) + 1)
      (MainGo.initStates paths (MainGo.antPathsOf f.Ants paths)) 0).2.1.length := by
    rw [hreslen]
    omega
  have hdone := all_done_of_countDone _ (hterm.2.1.trans hreslen.symm)
    ((MainGo.simLoop f.End f.Ants
      (MainGo.sumRem (MainGo.initStates paths (MainGo.antPathsOf f.Ants paths)) + 1)
      (MainGo.initStates paths (MainGo.antPathsOf f.Ants paths)) 0).2.1.getD j ([], 0))
    (by
      rw [getD_eq_getElem_of_lt _ _ _ hjres]
      exact List.getElem_mem hjres)
  have hrj : ((MainGo.simLoop f.End f.Ants
      (MainGo.sumRem (MainGo.initStates paths (MainGo.antPathsOf f.Ants paths)) + 1)
      (MainGo.initStates paths (MainGo.antPathsOf f.Ants paths)) 0).2.1.getD
        j ([], 0)).1 = paths.getD pi [] := by
    have hr := hploop.1
    rw [hRoute0] at hr
    exact hr
  have hpj : ((MainGo.simLoop f.End f.Ants
      (MainGo.sumRem (MainGo.initStates paths (MainGo.antPathsOf f.Ants paths)) + 1)
      (MainGo.initStates paths (MainGo.antPathsOf f.Ants paths)) 0).2.1.getD
        j ([], 0)).2 ≤ 0 + (MainGo.simLoop f.End f.Ants
      (MainGo.sumRem (MainGo.initStates paths (MainGo.antPathsOf f.Ants paths)) + 1)
      (MainGo.initStates paths (MainGo.antPathsOf f.Ants paths)) 0).1.length := by
    have hp := hploop.2
    rw [hPos0] at hp
    exact hp
  rw [hrj] at hdone
  have hsim : (MainGo.simulateAnts f paths).length =
      (MainGo.simLoop f.End f.Ants
        (MainGo.sumRem (MainGo.initStates paths (MainGo.antPathsOf f.Ants paths)) + 1)
        (MainGo.initStates paths (MainGo.antPathsOf f.Ants paths)) 0).1.length := rfl
  rw [hsim]
  omega

/-- Claim C3, witness: the single route of `farm8` with its two agents. -/
theorem claim_C3_witness :
    (finalPaths farm8 ≠ [] ∧ ∀ p ∈ finalPaths farm8, RouteWF farm8.End p) ∧
      schedulerRunOK farm8 (finalPaths farm8) :=
  ⟨by decide, claim_C3 farm8 (finalPaths farm8) (by decide) (by decide)⟩

/-!
The unsolvable case (claim C9)
-/

theorem findAll_foldl_const (f : Farm) :
    ∀ (l : List String), (∀ n ∈ l, bfsShortestPath f n [] = none) →
      ∀ acc : List (List String),
        l.foldl
          (fun acc n =>
            match bfsShortestPath f n [] with
            | some path => acc ++ [path]
            | none => acc) acc = acc := by
  intro l
  induction l with
  | nil => intro _ acc; rfl
  | cons n ns ih =>
    intro hl acc
    simp only [List.foldl_cons]
    rw [hl n (List.mem_cons_self _ _)]
    exact ih (fun m hm => hl m (List.mem_cons_of_mem _ hm)) acc

theorem nonOverlapLoop_const (f : Farm) :
    ∀ (l : List String), (∀ n ∈ l, bfsShortestPath f n [] = none) →
      nonOverlapLoop f l [] [] = [] := by
  intro l
  induction l with
  | nil => intro _; rfl
  | cons n ns ih =>
    intro hl
    simp only [nonOverlapLoop]
    rw [hl n (List.mem_cons_self _ _)]
    exact ih (fun m hm => hl m (List.mem_cons_of_mem _ hm))

/-- Claim C9: whenever every first-hop search fails (in particular when
the start room has no neighbors at all, which makes the hypothesis
vacuous), both candidate-route collectors are empty, the Route Set is
empty, and both variants' `main` tails report "no solution" (`none`)
rather than producing a schedule or crashing. -/
theorem claim_C9 (f : Farm)
    (h : ∀ n ∈ startLinks f, bfsShortestPath f n [] = none) :
    pipelineUnsolvableOK f := by
  have hall : findAllShortestPaths f = [] :=
    findAll_foldl_const f (startLinks f) h []
  have hperm := sortGo_perm (degree f) (startLinks f).length (startLinks f) le_rfl
  have hnon : findNonOverlappingPaths f = [] := by
    apply nonOverlapLoop_const f (sortNeighbors f)
    intro n hn
    exact h n (hperm.mem_iff.mp hn)
  have hbest : selectBestPaths (findAllShortestPaths f) = [] := by
    rw [hall]
    rfl
  have hfinal : finalPaths f = [] := by
    unfold finalPaths
    rw [hall, hnon]
    rfl
  refine ⟨hall, hnon, hbest, hfinal, ?_, ?_⟩
  · unfold MainGo.mainResult
    rw [if_pos hfinal]
  · unfold PartZero.mainResult
    rw [if_pos hfinal]

/-- Claim C9, witness: a farm whose start room has no tunnels. -/
theorem claim_C9_witness :
    (∀ n ∈ startLinks farmNoNeighbors,
        bfsShortestPath farmNoNeighbors n [] = none) ∧
      pipelineUnsolvableOK farmNoNeighbors :=
  ⟨by decide, claim_C9 farmNoNeighbors (by decide)⟩

/-!
Tunnel-endpoint validation in the two parsers (claim C10)
-/

theorem addLink_mem (rs : List (String × Room)) (a b : String) :
    ∀ p ∈ addLink rs a b, ∃ q ∈ rs, p.1 = q.1 ∧
      (p.2.Links = q.2.Links ∨ p.2.Links = q.2.Links ++ [b]) := by
  intro p hp
  unfold addLink at hp
  rcases List.mem_map.mp hp with ⟨q, hq, rfl⟩
  by_cases hqa : q.1 = a
  · exact ⟨q, hq, by simp [hqa]⟩
  · exact ⟨q, hq, by simp [hqa]⟩

theorem addLink_exists_key (rs : List (String × Room)) (a b l : String)
    (h : ∃ q ∈ rs, q.1 = l) : ∃ q ∈ addLink rs a b, q.1 = l := by
  obtain ⟨q, hq, hql⟩ := h
  unfold addLink
  refine ⟨(if q.1 = a then (q.1, { q.2 with Links := q.2.Links ++ [b] }) else q),
    List.mem_map_of_mem _ hq, ?_⟩
  split
  · exact hql
  · exact hql

theorem exists_key_of_find? (rs : List (String × Room)) (n : String)
    (hn : ¬ (rs.find? (fun p => p.1 = n)).isNone = true) :
    ∃ q ∈ rs, q.1 = n := by
  rcases hf : rs.find? (fun p => p.1 = n) with _ | q
  · exact absurd (by rw [hf]; rfl) hn
  · have hp := List.find?_some hf
    have hqmem := List.mem_of_find?_eq_some hf
    exact ⟨q, hqmem, by simpa using hp⟩

theorem pStep_rooms (st : PartZero.PSt) (line : String) (st' : PartZero.PSt)
    (h : PartZero.pStep st line = .ok st') :
    st'.rooms = st.rooms ∨
    (∃ rm : Room, rm.Links = [] ∧ st'.rooms = st.rooms ++ [(rm.Name, rm)]) ∨
    (∃ a b, (∃ q ∈ st.rooms, q.1 = a) ∧ (∃ q ∈ st.rooms, q.1 = b) ∧
      st'.rooms = addLink (addLink st.rooms a b) b a) := by
  unfold PartZero.pStep at h
  split at h
  · exact Or.inl (by cases h; rfl)
  split at h
  · refine Or.inl ?_
    unfold PartZero.pStepAnts at h
    split at h
    · split at h
      · cases h; rfl
      · exact Except.noConfusion h
    · exact Except.noConfusion h
  split at h
  · exact Or.inl (by cases h; rfl)
  split at h
  · refine Or.inr (Or.inl ?_)
    unfold PartZero.pStepRoomP at h
    split at h
    · exact Except.noConfusion h
    split at h
    · exact Except.noConfusion h
    split at h
    · split at h
      · exact Except.noConfusion h
      split at h
      · exact Except.noConfusion h
      split at h
      · exact Except.noConfusion h
      cases h
      exact ⟨⟨_, _, _, []⟩, rfl, rfl⟩
    · exact Except.noConfusion h
  split at h
  · refine Or.inr (Or.inr ?_)
    unfold PartZero.pStepTunnelP at h
    split at h
    · exact Except.noConfusion h
    split at h
    · exact Except.noConfusion h
    rename_i hun
    cases h
    rw [not_or] at hun
    exact ⟨_, _, exists_key_of_find? _ _ hun.1, exists_key_of_find? _ _ hun.2,
      rfl⟩
  · exact Except.noConfusion h

theorem foldl_parse_error (e : String) :
    ∀ (ls : List String),
      ls.foldl (fun (acc : Except String PartZero.PSt) l =>
        acc.bind (fun s => PartZero.pStep s l)) (Except.error e) =
        Except.error e := by
  intro ls
  induction ls with
  | nil => rfl
  | cons l rest ih => exact ih

theorem pStep_closed (st : PartZero.PSt) (line : String) (st' : PartZero.PSt)
    (h : PartZero.pStep st line = .ok st')
    (hc : ∀ p ∈ st.rooms, ∀ l ∈ p.2.Links, ∃ q ∈ st.rooms, q.1 = l) :
    ∀ p ∈ st'.rooms, ∀ l ∈ p.2.Links, ∃ q ∈ st'.rooms, q.1 = l := by
  rcases pStep_rooms st line st' h with hr | ⟨rm, hrm, hr⟩ | ⟨a, b, ha, hb, hr⟩
  · rw [hr]; exact hc
  · rw [hr]
    intro p hp l hl
    rcases List.mem_append.mp hp with hp | hp
    · obtain ⟨q, hq, hql⟩ := hc p hp l hl
      exact ⟨q, List.mem_append_left _ hq, hql⟩
    · simp only [List.mem_singleton] at hp
      rw [hp] at hl
      simp only at hl
      rw [hrm] at hl
      simp at hl
  · rw [hr]
    intro p hp l hl
    obtain ⟨q1, hq1, hkey1, hlinks1⟩ := addLink_mem _ b a p hp
    obtain ⟨q0, hq0, hkey0, hlinks0⟩ := addLink_mem _ a b q1 hq1
    have hself : ∀ n : String, (∃ q ∈ st.rooms, q.1 = n) →
        ∃ q ∈ addLink (addLink st.rooms a b) b a, q.1 = n := by
      intro n hn
      exact addLink_exists_key _ b a n (addLink_exists_key _ a b n hn)
    have hl0 : l ∈ q0.2.Links ∨ l = b ∨ l = a := by
      rcases hlinks1 with h1 | h1 <;> rw [h1] at hl
      · rcases hlinks0 with h0 | h0 <;> rw [h0] at hl
        · exact Or.inl hl
        · rcases List.mem_append.mp hl with hl | hl
          · exact Or.inl hl
          · simp at hl; exact Or.inr (Or.inl hl)
      · rcases List.mem_append.mp hl with hl | hl
        · rcases hlinks0 with h0 | h0 <;> rw [h0] at hl
          · exact Or.inl hl
          · rcases List.mem_append.mp hl with hl | hl
            · exact Or.inl hl
            · simp at hl; exact Or.inr (Or.inl hl)
        · simp at hl; exact Or.inr (Or.inr hl)
    rcases hl0 with hl0 | hl0 | hl0
    · exact hself l (hc q0 hq0 l hl0)
    · rw [hl0]; exact hself b hb
    · rw [hl0]; exact hself a ha

theorem partParse_loop_closed :
    ∀ (lines : List String) (st st' : PartZero.PSt),
      (lines.foldl (fun (acc : Except String PartZero.PSt) l =>
        acc.bind (fun s => PartZero.pStep s l)) (Except.ok st)) = .ok st' →
      (∀ p ∈ st.rooms, ∀ l ∈ p.2.Links, ∃ q ∈ st.rooms, q.1 = l) →
      ∀ p ∈ st'.rooms, ∀ l ∈ p.2.Links, ∃ q ∈ st'.rooms, q.1 = l := by
  intro lines
  induction lines with
  | nil =>
    intro st st' h hc
    injection h with h
    rw [← h]
    exact hc
  | cons line rest ih =>
    intro st st' h hc
    simp only [List.foldl_cons] at h
    rcases hps : PartZero.pStep st line with e | st1
    · rw [show Except.bind (Except.ok st) (fun s => PartZero.pStep s line) =
          PartZero.pStep st line from rfl, hps, foldl_parse_error] at h
      cases h
    · rw [show Except.bind (Except.ok st) (fun s => PartZero.pStep s line) =
          PartZero.pStep st line from rfl, hps] at h
      exact ih st1 st' h (pStep_closed st line st1 hps hc)

/-- Claim C10: the part_000 parser rejects tunnels naming undeclared
rooms, so every accepted farm has closed links; the main.go parser
accepts the same input, appending the undeclared name `ghost` to the
declared endpoint's links, and the BFS expansion for that neighbor then
looks up the missing room and panics (nil-pointer dereference). -/
theorem claim_C10 :
    (∀ (lines : List String) (f : Farm),
        PartZero.parseInput lines = .ok f → closedLinks f) ∧
      MainGo.parseInput ghostLines = .ok ghostFarm ∧
      PartZero.parseInput ghostLines =
        .error "tunnel references unknown room(s)" ∧
      "ghost" ∈ startLinks ghostFarm ∧
      findRoom ghostFarm "ghost" = none ∧
      bfsShortestPathE ghostFarm "ghost" [] = .panic := by
  refine ⟨?_, by decide, by decide, by decide, by decide, by decide⟩
  intro lines f h
  unfold PartZero.parseInput at h
  rcases hfold : lines.foldl (fun (acc : Except String PartZero.PSt) l =>
      acc.bind (fun s => PartZero.pStep s l))
      (Except.ok ⟨0, [], "", "", "", false, false, false, []⟩) with e | st
  · rw [hfold] at h
    cases h
  · rw [hfold] at h
    dsimp only at h
    split_ifs at h with hse
    have hclosed := partParse_loop_closed lines _ st hfold (by simp)
    have hf : f.Rooms = st.rooms := by
      cases h
      rfl
    intro p hp l hl
    rw [hf] at hp
    obtain ⟨q, hq, hql⟩ := hclosed p hp l hl
    unfold findRoom
    rcases hfq : List.find? (fun p => decide (p.1 = l)) f.Rooms with _ | x
    · exfalso
      have := List.find?_eq_none.mp hfq q (by rw [hf]; exact hq)
      simp [hql] at this
    · rw [hfq]
      rfl

/-- Claim C10, witness: a well-formed input accepted by the part_000
parser, whose resulting farm has closed links. -/
theorem claim_C10_witness :
    PartZero.parseInput ["2", "##start", "s 0 0", "##end", "e 5 0", "s-e"] =
        .ok ⟨2, [("s", ⟨"s", 0, 0, ["e"]⟩), ("e", ⟨"e", 5, 0, ["s"]⟩)], "s", "e"⟩ ∧
      closedLinks
        ⟨2, [("s", ⟨"s", 0, 0, ["e"]⟩), ("e", ⟨"e", 5, 0, ["s"]⟩)], "s", "e"⟩ :=
  ⟨by decide, claim_C10.1 ["2", "##start", "s 0 0", "##end", "e 5 0", "s-e"] _
    (by decide)⟩

/-!
Sufficiency of the BFS fuel bound

Go's BFS loop runs until its queue empties; the embedding bounds it by
`(bfsNames f n).length + 2`.  The lemmas below justify the bound: every
enqueue consumes a fresh name from `bfsNames`, so the measure
`|queue| + (#names − #visited)` strictly decreases each iteration, and
any fuel at or above the measure yields the same result.
-/

theorem bfsExpand_spec (blocked path names : List String) :
    ∀ (nexts : List String) (q : List (List String)) (v : List String),
      v.Nodup → (∀ x ∈ v, x ∈ names) → (∀ x ∈ nexts, x ∈ names) →
      (∀ p ∈ q, ∀ x ∈ p, x ∈ v) → (∀ x ∈ path, x ∈ v) →
      (bfsExpand blocked path nexts q v).1.length + v.length =
          q.length + (bfsExpand blocked path nexts q v).2.length ∧
        (bfsExpand blocked path nexts q v).2.Nodup ∧
        (∀ x ∈ (bfsExpand blocked path nexts q v).2, x ∈ names) ∧
        (∀ x ∈ v, x ∈ (bfsExpand blocked path nexts q v).2) ∧
        (∀ p ∈ (bfsExpand blocked path nexts q v).1, ∀ x ∈ p,
          x ∈ (bfsExpand blocked path nexts q v).2) := by
  intro nexts
  induction nexts with
  | nil =>
    intro q v hnd hvn _ hq hp
    exact ⟨rfl, hnd, hvn, fun x hx => hx, hq⟩
  | cons nx rest ih =>
    intro q v hnd hvn hnn hq hp
    by_cases hc : nx ∉ v ∧ nx ∉ blocked
    · have hred : bfsExpand blocked path (nx :: rest) q v =
          bfsExpand blocked path rest (q ++ [path ++ [nx]]) (nx :: v) := by
        unfold bfsExpand
        rw [List.foldl_cons, if_pos hc]
      rw [hred]
      have hnd2 : (nx :: v).Nodup := List.nodup_cons.mpr ⟨hc.1, hnd⟩
      have hvn2 : ∀ x ∈ nx :: v, x ∈ names := by
        intro x hx
        rcases List.mem_cons.mp hx with rfl | hx
        · exact hnn x (List.mem_cons_self _ _)
        · exact hvn x hx
      have hq2 : ∀ p ∈ q ++ [path ++ [nx]], ∀ x ∈ p, x ∈ nx :: v := by
        intro p hpm x hx
        rcases List.mem_append.mp hpm with hpm | hpm
        · exact List.mem_cons_of_mem _ (hq p hpm x hx)
        · simp only [List.mem_singleton] at hpm
          rw [hpm] at hx
          rcases List.mem_append.mp hx with hx | hx
          · exact List.mem_cons_of_mem _ (hp x hx)
          · simp only [List.mem_singleton] at hx
            rw [hx]
            exact List.mem_cons_self _ _
      have hp2 : ∀ x ∈ path, x ∈ nx :: v :=
        fun x hx => List.mem_cons_of_mem _ (hp x hx)
      obtain ⟨hlen, hnd3, hvn3, hmono, hq3⟩ := ih (q ++ [path ++ [nx]])
        (nx :: v) hnd2 hvn2
        (fun x hx => hnn x (List.mem_cons_of_mem _ hx)) hq2 hp2
      refine ⟨?_, hnd3, hvn3, ?_, hq3⟩
      · rw [List.length_append, List.length_cons] at hlen
        simp only [List.length_singleton] at hlen
        omega
      · exact fun x hx => hmono x (List.mem_cons_of_mem _ hx)
    · have hred : bfsExpand blocked path (nx :: rest) q v =
          bfsExpand blocked path rest q v := by
        unfold bfsExpand
        rw [List.foldl_cons, if_neg hc]
      rw [hred]
      exact ih q v hnd hvn (fun x hx => hnn x (List.mem_cons_of_mem _ hx)) hq hp

theorem linksD_subset (f : Farm) (names : List String)
    (hc : ∀ p ∈ f.Rooms, ∀ l ∈ p.2.Links, l ∈ names) (last : String) :
    ∀ x ∈ linksD f last, x ∈ names := by
  intro x hx
  unfold linksD findRoom at hx
  rcases hf : f.Rooms.find? (fun p => p.1 = last) with _ | p
  · rw [hf] at hx
    simp at hx
  · rw [hf] at hx
    simp only [Option.map_some', Option.getD_some] at hx
    exact hc p (List.mem_of_find?_eq_some hf) x hx

theorem bfsLoop_fuel_stable (f : Farm) (blocked names : List String)
    (hcl : ∀ p ∈ f.Rooms, ∀ l ∈ p.2.Links, l ∈ names) :
    ∀ (fuel : Nat) (q : List (List String)) (v : List String),
      v.Nodup → (∀ x ∈ v, x ∈ names) → (∀ p ∈ q, ∀ x ∈ p, x ∈ v) →
      q.length + (names.length - v.length) ≤ fuel →
      bfsLoop f blocked fuel q v = bfsLoop f blocked (fuel + 1) q v := by
  intro fuel
  induction fuel with
  | zero =>
    intro q v _ _ _ hm
    have hq : q = [] := by
      cases q with
      | nil => rfl
      | cons p qs => simp [List.length_cons] at hm
    rw [hq]
    rfl
  | succ fuel ih =>
    intro q v hnd hvn hq hm
    cases q with
    | nil => rfl
    | cons path queue =>
      show bfsLoop f blocked (fuel + 1) (path :: queue) v =
        bfsLoop f blocked (fuel + 1 + 1) (path :: queue) v
      simp only [bfsLoop]
      by_cases hend : path.getLastD "" = f.End
      · rw [if_pos hend, if_pos hend]
      · rw [if_neg hend, if_neg hend]
        have hpath : ∀ x ∈ path, x ∈ v := hq path (List.mem_cons_self _ _)
        have hqueue : ∀ p ∈ queue, ∀ x ∈ p, x ∈ v :=
          fun p hp => hq p (List.mem_cons_of_mem _ hp)
        obtain ⟨hlen, hnd2, hvn2, _, hq2⟩ := bfsExpand_spec blocked path names
          (linksD f (path.getLastD "")) queue v hnd hvn
          (linksD_subset f names hcl _) hqueue hpath
        have hvle : (bfsExpand blocked path (linksD f (path.getLastD ""))
            queue v).2.length ≤ names.length :=
          (List.subperm_of_subset hnd2 (fun x hx => hvn2 x hx)).length_le
        apply ih
        · exact hnd2
        · exact hvn2
        · exact hq2
        · simp only [List.length_cons] at hm
          omega

/-- The occupancy invariant holds for `main.go`'s scheduler: within one
turn, the non-end destinations of the moves are pairwise distinct and
avoid the incoming occupied set (the part_000 variant, which claims
tunnel links instead of rooms, does not enforce this). -/
theorem simTurn_moves_nodup (endR : String) :
    ∀ (sts : List (List String × Nat)) (i : Nat) (occ : List String),
      (((MainGo.simTurn endR sts i occ).2.1.filter
          (fun m => decide (m.2 ≠ endR))).map (fun m => m.2)).Nodup ∧
        ∀ x ∈ ((MainGo.simTurn endR sts i occ).2.1.filter
          (fun m => decide (m.2 ≠ endR))).map (fun m => m.2), x ∉ occ := by
  intro sts
  induction sts with
  | nil => intro i occ; simp [MainGo.simTurn]
  | cons st rest ih =>
    intro i occ
    obtain ⟨r, p⟩ := st
    simp only [MainGo.simTurn]
    by_cases h1 : r.length - 1 ≤ p
    · rw [if_pos h1]
      exact ih (i + 1) occ
    · rw [if_neg h1]
      by_cases h2 : r.getD (p + 1) "" = endR ∨ r.getD (p + 1) "" ∉ occ
      · rw [if_pos h2]
        by_cases he : r.getD (p + 1) "" = endR
        · rw [if_pos he]
          have hfilter : ((i + 1, r.getD (p + 1) "") ::
              (MainGo.simTurn endR rest (i + 1) occ).2.1).filter
                (fun m => decide (m.2 ≠ endR)) =
              (MainGo.simTurn endR rest (i + 1) occ).2.1.filter
                (fun m => decide (m.2 ≠ endR)) :=
            List.filter_cons_of_neg (by simpa using he)
          rw [hfilter]
          exact ih (i + 1) occ
        · rw [if_neg he]
          have hni : r.getD (p + 1) "" ∉ occ := h2.resolve_left he
          have hfilter : ((i + 1, r.getD (p + 1) "") ::
              (MainGo.simTurn endR rest (i + 1)
                (r.getD (p + 1) "" :: occ)).2.1).filter
                (fun m => decide (m.2 ≠ endR)) =
              (i + 1, r.getD (p + 1) "") ::
              (MainGo.simTurn endR rest (i + 1)
                (r.getD (p + 1) "" :: occ)).2.1.filter
                (fun m => decide (m.2 ≠ endR)) :=
            List.filter_cons_of_pos (by simpa using he)
          rw [hfilter, List.map_cons]
          obtain ⟨hnd, hocc⟩ := ih (i + 1) (r.getD (p + 1) "" :: occ)
          refine ⟨List.nodup_cons.mpr ⟨?_, hnd⟩, ?_⟩
          · intro hmem
            exact (hocc _ hmem) (List.mem_cons_self _ _)
          · intro x hx
            rcases List.mem_cons.mp hx with rfl | hx
            · exact hni
            · exact fun hc => (hocc x hx) (List.mem_cons_of_mem _ hc)
      · rw [if_neg h2]
        exact ih (i + 1) occ

/-- Lifted to whole schedules: no turn `main.go`'s scheduler ever emits
contains two moves into the same non-end room. -/
theorem simLoop_turns_nodup (endR : String) (ants : Nat) :
    ∀ (fuel : Nat) (sts : List (List String × Nat)) (fin : Nat),
      ∀ turn ∈ (MainGo.simLoop endR ants fuel sts fin).1,
        ((turn.filter (fun m => decide (m.2 ≠ endR))).map
          (fun m => m.2)).Nodup := by
  intro fuel
  induction fuel with
  | zero => intro sts fin turn hturn; simp [MainGo.simLoop] at hturn
  | succ fuel ih =>
    intro sts fin turn hturn
    by_cases hlt : fin < ants
    · have hstep : MainGo.simLoop endR ants (fuel + 1) sts fin =
          ((MainGo.simTurn endR sts 0 []).2.1 ::
            (MainGo.simLoop endR ants fuel (MainGo.simTurn endR sts 0 []).1
              (fin + (MainGo.simTurn endR sts 0 []).2.2.1)).1,
           (MainGo.simLoop endR ants fuel (MainGo.simTurn endR sts 0 []).1
              (fin + (MainGo.simTurn endR sts 0 []).2.2.1)).2) := by
        simp only [MainGo.simLoop, if_pos hlt]
      rw [hstep] at hturn
      rcases List.mem_cons.mp hturn with rfl | hturn
      · exact (simTurn_moves_nodup endR sts 0 []).1
      · exact ih _ _ turn hturn
    · have hstop : MainGo.simLoop endR ants (fuel + 1) sts fin =
          ([], sts, fin) := by
        simp only [MainGo.simLoop, if_neg hlt]
      rw [hstop] at hturn
      simp at hturn

/-- Like the BFS fuel bound, the scheduler wrapper's fuel
`sumRem + 1` is sufficient: any larger fuel yields the same result,
since with `sumRem` fuel the loop already reaches its exit condition
(see `simLoop_term`). -/
theorem simLoop_fuel_stable (endR : String) (ants : Nat) :
    ∀ (fuel : Nat) (sts : List (List String × Nat)) (fin : Nat),
      StatesWF endR sts → ants = sts.length → fin = countDone sts →
      MainGo.sumRem sts ≤ fuel →
      MainGo.simLoop endR ants fuel sts fin =
        MainGo.simLoop endR ants (fuel + 1) sts fin := by
  intro fuel
  induction fuel with
  | zero =>
    intro sts fin hwf hlen hfin hfuel
    have hall : ∀ rp ∈ sts, rp.1.length - 1 ≤ rp.2 :=
      all_done_of_sumRem_zero sts (by omega)
    have hcd := countDone_eq_length sts hall
    have hnl : ¬ fin < ants := by omega
    show ([], sts, fin) = MainGo.simLoop endR ants 1 sts fin
    simp only [MainGo.simLoop, if_neg hnl]
  | succ fuel ih =>
    intro sts fin hwf hlen hfin hfuel
    by_cases hlt : fin < ants
    · have hex : ∃ rp ∈ sts, rp.2 < rp.1.length - 1 :=
        exists_undone sts (by omega)
      have hmv := simTurn_moves_pos endR sts 0 hex
      have hsum := simTurn_sumRem endR sts 0 []
      have hwf2 := simTurn_WF endR sts 0 [] hwf
      have hlen2 := simTurn_length endR sts 0 []
      have hcd := simTurn_countDone endR sts 0 [] hwf
      have hrec := ih (MainGo.simTurn endR sts 0 []).1
        (fin + (MainGo.simTurn endR sts 0 []).2.2.1)
        hwf2 (by omega) (by omega) (by omega)
      have hstep : ∀ fl : Nat, MainGo.simLoop endR ants (fl + 1) sts fin =
          ((MainGo.simTurn endR sts 0 []).2.1 ::
            (MainGo.simLoop endR ants fl (MainGo.simTurn endR sts 0 []).1
              (fin + (MainGo.simTurn endR sts 0 []).2.2.1)).1,
           (MainGo.simLoop endR ants fl (MainGo.simTurn endR sts 0 []).1
              (fin + (MainGo.simTurn endR sts 0 []).2.2.1)).2) := by
        intro fl
        simp only [MainGo.simLoop, if_pos hlt]
      rw [hstep fuel, hstep (fuel + 1), hrec]
    · have hstep : ∀ fl : Nat, MainGo.simLoop endR ants (fl + 1) sts fin =
          ([], sts, fin) := by
        intro fl
        simp only [MainGo.simLoop, if_neg hlt]
      rw [hstep fuel, hstep (fuel + 1)]

theorem bfsNames_closed (f : Farm) (n : String) :
    ∀ p ∈ f.Rooms, ∀ l ∈ p.2.Links, l ∈ bfsNames f n := by
  intro p hp l hl
  unfold bfsNames
  refine List.mem_cons_of_mem _ (List.mem_cons_of_mem _
    (List.mem_append_right _ ?_))
  exact List.mem_flatMap.mpr ⟨p, hp, hl⟩

/-- Any fuel at or above the bound built into `bfsShortestPath` yields
the same result: the fuel-bounded loop computes what Go's unbounded
queue loop computes. -/
theorem bfsShortestPath_fuel_sufficient (f : Farm) (n : String)
    (blocked : List String) (extra : Nat) :
    bfsLoop f blocked ((bfsNames f n).length + 2 + extra) [[f.Start, n]]
      (if n = f.Start then [f.Start] else [f.Start, n]) =
      bfsShortestPath f n blocked := by
  induction extra with
  | zero => rfl
  | succ extra ih =>
    rw [← ih]
    have hnd : (if n = f.Start then [f.Start] else [f.Start, n]).Nodup := by
      split
      · simp
      · rename_i h
        simp only [List.nodup_cons, List.mem_singleton, List.not_mem_nil,
          not_false_iff, List.nodup_nil, and_true]
        exact fun hh => h hh.symm
    have hsub : ∀ x ∈ (if n = f.Start then [f.Start] else [f.Start, n]),
        x ∈ bfsNames f n := by
      intro x hx
      unfold bfsNames
      split at hx
      · simp only [List.mem_singleton] at hx
        rw [hx]
        exact List.mem_cons_self _ _
      · rcases List.mem_cons.mp hx with rfl | hx
        · exact List.mem_cons_self _ _
        · simp only [List.mem_singleton] at hx
          rw [hx]
          exact List.mem_cons_of_mem _ (List.mem_cons_self _ _)
    have hpaths : ∀ p ∈ [[f.Start, n]], ∀ x ∈ p,
        x ∈ (if n = f.Start then [f.Start] else [f.Start, n]) := by
      intro p hp x hx
      simp only [List.mem_singleton] at hp
      rw [hp] at hx
      split
      · rename_i h
        rcases List.mem_cons.mp hx with rfl | hx
        · exact List.mem_cons_self _ _
        · simp only [List.mem_singleton] at hx
          rw [hx, h]
          exact List.mem_cons_self _ _
      · exact hx
    have hvlen : (if n = f.Start then [f.Start] else [f.Start, n]).length = 1 ∨
        (if n = f.Start then [f.Start] else [f.Start, n]).length = 2 := by
      split
      · exact Or.inl rfl
      · exact Or.inr rfl
    have hmeas : ([[f.Start, n]] : List (List String)).length +
        ((bfsNames f n).length -
          (if n = f.Start then [f.Start] else [f.Start, n]).length) ≤
        (bfsNames f n).length + 2 + extra := by
      simp only [List.length_singleton]
      omega
    exact (bfsLoop_fuel_stable f blocked (bfsNames f n) (bfsNames_closed f n)
      ((bfsNames f n).length + 2 + extra) [[f.Start, n]] _ hnd hsub hpaths
      hmeas).symm

end LemIn
